import Mathlib

set_option maxHeartbeats 1000000

/-!
Shallow embedding of `lib/googleapi.py` (pm-graph googleapi library): the
path-resolution / caching engine (`gdrive_find`, `gdrive_mkdir`, `gdrive_get`,
`gdrive_delete`, `gdrive_backup`, `gdrive_command_simple`), the resilient
remote-call wrapper `google_api_command` (retry, backoff, pagination) and the
file-based mutex `mutex_lock`.

The remote drive is modelled as a finite list of objects (id, name, parents,
mimeType, trashed flag) plus a fresh-id counter; the command layer's remote
calls are pure state transitions over that model (a fault-free remote).  The
retry/backoff behaviour of `google_api_command` over a faulty remote is
modelled separately by `apiRetryRun`, and its pagination behaviour by
`google_api_list` over an abstract finite chain of pages.  The in-memory
cache `gdriveids` is an association list with Python-dict semantics: unique
key lookup, overriding insert, and a delete that raises `KeyError` on a
missing key.
-/

/-! ### Decimal representation: `Nat.repr` is injective.

Fresh remote object ids in the model are `"gid" ++ Nat.repr n`, and the
backup suffixes of `gdrive_backup` are `".bak"`, `".bak" ++ Nat.repr i`;
distinctness of these strings reduces to injectivity of `Nat.repr`. -/

def digitVal (c : Char) : Nat := c.toNat - 48

def valOfDigits (ds : List Char) : Nat := ds.foldl (fun a c => a * 10 + digitVal c) 0

def natDigits (n : Nat) : List Char :=
  if n < 10 then [Nat.digitChar n]
  else natDigits (n / 10) ++ [Nat.digitChar (n % 10)]
termination_by n
decreasing_by exact Nat.div_lt_self (by omega) (by omega)

/-! ### POSIX path helpers.

`os.path.dirname` / `os.path.basename` / `os.path.join` as used by the
source (only the two-argument join, on arguments that never carry a
leading-slash second component in the source except through `gdrive_find`'s
caller-supplied paths, so the absolute-override branch is kept). -/

def posixBasename (p : String) : String :=
  ⟨(p.data.reverse.takeWhile (fun c => !(c == '/'))).reverse⟩

def posixDirname (p : String) : String :=
  let head := (p.data.reverse.dropWhile (fun c => !(c == '/'))).reverse
  if head.isEmpty || head.all (fun c => c == '/') then ⟨head⟩
  else ⟨(head.reverse.dropWhile (fun c => c == '/')).reverse⟩

def headIsSlash (s : String) : Bool :=
  match s.data with
  | [] => false
  | ch :: _ => ch == '/'

def lastIsSlash (s : String) : Bool :=
  match s.data.getLast? with
  | some ch => ch == '/'
  | none => false

def posixJoin (a b : String) : String :=
  if headIsSlash b then b
  else if a = "" || lastIsSlash a then a ++ b
  else a ++ "/" ++ b

/-- Python's `str.split(sep)` for the one separator the source uses
(`dir.split('/')` in `gdrive_mkdir`). -/
def splitCharAux : List Char → List Char → List String
  | [], acc => [⟨acc.reverse⟩]
  | ch :: t, acc =>
    if ch = '/' then ⟨acc.reverse⟩ :: splitCharAux t []
    else splitCharAux t (ch :: acc)

def splitSlash (s : String) : List String := splitCharAux s.data []

/-- Accumulation of the walk prefix in `gdrive_mkdir`:
`cpath = op.join(cpath, subdir) if cpath else subdir`, where `subdir` comes
from `dir.split('/')` and hence contains no slash. -/
def joinSeg (cpath subdir : String) : String :=
  if cpath ≠ "" then cpath ++ "/" ++ subdir else subdir

/-! ### The remote drive model.

A remote object carries the fields the source reads: `id`, `name`,
`parents`, `mimeType`, `trashed`.  Fresh ids handed out by `create` are
`mkId nextId`; the root folder is the sentinel id `"root"`
(`gdrive_mkdir` line 231). -/

structure GFile where
  id : String
  name : String
  parents : List String
  mimeType : String
  trashed : Bool
deriving DecidableEq

structure Drive where
  files : List GFile
  nextId : Nat
deriving DecidableEq

def fmime : String := "application/vnd.google-apps.folder"

def mkId (n : Nat) : String := "gid" ++ Nat.repr n

/-- Query shapes built by the source as `q` strings for `files().list`:
`gdrive_mkdir` line 242 (`trashed = false and mimeType = folder and
pid in parents and name = subdir`), `gdrive_get` line 261 (no mimeType
conjunct), `gdrive_command_simple` line 312 (children only) and line 332
(non-folder children only). -/
inductive Query where
  | folderChild (parent nm : String)
  | child (parent nm : String)
  | childrenOf (parent : String)
  | nonFolderChildren (parent : String)
deriving DecidableEq

def matchesQuery : Query → GFile → Prop
  | .folderChild p nm, f => f.trashed = false ∧ f.mimeType = fmime ∧ p ∈ f.parents ∧ f.name = nm
  | .child p nm, f => f.trashed = false ∧ p ∈ f.parents ∧ f.name = nm
  | .childrenOf p, f => f.trashed = false ∧ p ∈ f.parents
  | .nonFolderChildren p, f => f.trashed = false ∧ f.mimeType ≠ fmime ∧ p ∈ f.parents

instance (q : Query) (f : GFile) : Decidable (matchesQuery q f) := by
  cases q <;> simp only [matchesQuery] <;> infer_instance

/-- Fault-free semantics of `google_api_command('list', query)`: every
matching file of the drive, in drive order (pagination is modelled
separately by `google_api_list`). -/
def apiListQ (d : Drive) (q : Query) : List GFile :=
  d.files.filter (fun f => decide (matchesQuery q f))

/-- Fault-free semantics of `google_api_command('create', metadata)`:
appends a fresh object and returns its id. -/
def apiCreate (d : Drive) (nm mime : String) (parents : List String) : Drive × String :=
  (⟨d.files ++ [⟨mkId d.nextId, nm, parents, mime, false⟩], d.nextId + 1⟩, mkId d.nextId)

/-- Fault-free semantics of `google_api_command('delete', fileId)`. -/
def apiDelete (d : Drive) (fid : String) : Drive :=
  ⟨d.files.filter (fun f => decide (f.id ≠ fid)), d.nextId⟩

/-- Fault-free semantics of `google_api_command('rename', fileId, newName)`. -/
def apiRename (d : Drive) (fid nm : String) : Drive :=
  ⟨d.files.map (fun f => if f.id = fid then { f with name := nm } else f), d.nextId⟩

/-- Fault-free semantics of `google_api_command('move', fileId, newParent)`:
the source first fetches the current parents, then updates with
`addParents = newParent` and `removeParents =` all old parents, so the
parent set becomes exactly the new parent. -/
def apiMove (d : Drive) (fid par : String) : Drive :=
  ⟨d.files.map (fun f => if f.id = fid then { f with parents := [par] } else f), d.nextId⟩

/-! ### The `gdriveids` cache: a Python dict from path to id. -/

abbrev Cache := List (String × String)

def cacheLookup (c : Cache) (k : String) : Option String :=
  (c.find? (fun p => decide (p.1 = k))).map (·.2)

/-- The source's guarded cache test `path in gdriveids and gdriveids[path]`:
a hit needs the key present with a truthy (nonempty) value. -/
def cacheHit (c : Cache) (k : String) : Option String :=
  match cacheLookup c k with
  | some v => if v = "" then none else some v
  | none => none

def cacheSet (c : Cache) (k v : String) : Cache :=
  (k, v) :: c.filter (fun p => decide (p.1 ≠ k))

/-- Python's `del dict[k]`: `none` models the `KeyError` raised when the
key is absent. -/
def cacheDel (c : Cache) (k : String) : Option Cache :=
  if (cacheLookup c k).isSome then some (c.filter (fun p => decide (p.1 ≠ k))) else none

/-! ### `gdrive_mkdir` (googleapi.py lines 229-258).

The walk over `dir.split('/')` threads the drive, the cache, the current
parent id `pid` and the accumulated prefix `cpath`; `creates` counts the
`google_api_command('create', ...)` calls issued.  The cross-process mutex
taken by the non-readonly branch is modelled separately (`mutex_lock`); in
this single-process state model it does not affect the walk. -/

structure MkdirRes where
  drive : Drive
  cache : Cache
  pid : String
  creates : Nat
deriving DecidableEq

def mkdirWalk (readonly : Bool) : List String → Drive → Cache → String → String → MkdirRes
  | [], d, c, pid, _ => ⟨d, c, pid, 0⟩
  | subdir :: rest, d, c, pid, cpath =>
    let cpath' := joinSeg cpath subdir
    match cacheHit c cpath' with
    | some v => mkdirWalk readonly rest d c v cpath'
    | none =>
      match apiListQ d (.folderChild pid subdir) with
      | f :: _ => mkdirWalk readonly rest d (cacheSet c cpath' f.id) f.id cpath'
      | [] =>
        if readonly then ⟨d, c, "", 0⟩
        else
          let dr := apiCreate d subdir fmime [pid]
          let r := mkdirWalk readonly rest dr.1 (cacheSet c cpath' dr.2) dr.2 cpath'
          { r with creates := r.creates + 1 }

def gdrive_mkdir (d : Drive) (c : Cache) (dir : String) (readonly : Bool) : MkdirRes :=
  if dir = "" then ⟨d, c, "root", 0⟩
  else mkdirWalk readonly (splitSlash dir) d c "root" ""

/-- `gdrive_get` (lines 260-262). -/
def gdrive_get (d : Drive) (folder nm : String) : List GFile :=
  apiListQ d (.child folder nm)

/-! ### `gdrive_find` (lines 205-227). -/

structure FindRes where
  drive : Drive
  cache : Cache
  pid : String
deriving DecidableEq

/-- Lines 210-212: split `gpath` and normalize a dirname of `.` or `/` to
the empty (root) dir. -/
def findDir (gpath : String) : String :=
  let dir0 := posixDirname gpath
  if dir0 = "." ∨ dir0 = "/" then "" else dir0

/-- Lines 213-217: resolve the parent dir, via the cache when possible,
else by a read-only `gdrive_mkdir` walk. -/
def findParent (d : Drive) (c : Cache) (dir : String) : Drive × Cache × String :=
  match cacheHit c dir with
  | some v => (d, c, v)
  | none =>
    let m := gdrive_mkdir d c dir true
    (m.drive, m.cache, m.pid)

/-- Lines 218-227: fail on an unresolved parent, answer the parent itself
for an empty or `.` leaf, else look the leaf up under the parent. -/
def findLeaf (d1 : Drive) (c1 : Cache) (pid gpath file : String) : FindRes :=
  if pid = "" then ⟨d1, c1, ""⟩
  else if file = "" ∨ file = "." then ⟨d1, cacheSet c1 gpath pid, pid⟩
  else
    match gdrive_get d1 pid file with
    | f :: _ => ⟨d1, cacheSet c1 gpath f.id, f.id⟩
    | [] => ⟨d1, c1, ""⟩

def gdrive_find (d : Drive) (c : Cache) (gpath : String) : FindRes :=
  match cacheHit c gpath with
  | some v => ⟨d, c, v⟩
  | none =>
    let pr := findParent d c (findDir gpath)
    findLeaf pr.1 pr.2.1 pr.2.2 gpath (posixBasename gpath)

/-! ### `gdrive_delete` (lines 264-270). -/

structure DeleteRes where
  drive : Drive
  cache : Cache
  raised : Bool
deriving DecidableEq

def gdrive_delete (d : Drive) (c : Cache) (folder nm : String) : DeleteRes :=
  let items := gdrive_get d folder nm
  let d1 : Drive := items.foldl (fun acc it => apiDelete acc it.id) d
  let gpath := posixJoin folder nm
  match cacheDel c gpath with
  | some c1 => ⟨d1, c1, false⟩
  | none => ⟨d1, c, true⟩

/-! ### `gdrive_backup` (lines 272-288).

The source probes `.bak`, `.bak1`, `.bak2`, ... with an unbounded `while`;
the model gives the probe `files.length + 1` fuel, which the pigeonhole
lemma below shows is always enough to reach a free suffix. -/

def bakAppend (i : Nat) : String :=
  if i = 0 then ".bak" else ".bak" ++ Nat.repr i

def probeBak (d : Drive) (bfid nm : String) : Nat → Nat → Nat
  | 0, j => j
  | fuel + 1, j =>
    if gdrive_get d bfid (nm ++ bakAppend j) = [] then j
    else probeBak d bfid nm fuel (j + 1)

structure BackupRes where
  drive : Drive
  cache : Cache
  ret : Bool
  raised : Bool
deriving DecidableEq

def gdrive_backup (d : Drive) (c : Cache) (folder nm : String) : BackupRes :=
  let gpath := posixJoin folder nm
  let r1 := gdrive_find d c folder
  let r2 := gdrive_find r1.drive r1.cache gpath
  if r2.pid = "" ∨ r1.pid = "" then ⟨r2.drive, r2.cache, false, false⟩
  else
    let m := gdrive_mkdir r2.drive r2.cache (posixJoin folder "old") false
    let k := probeBak m.drive m.pid nm (m.drive.files.length + 1) 0
    let d4 := apiRename m.drive r2.pid (nm ++ bakAppend k)
    let d5 := apiMove d4 r2.pid m.pid
    match cacheDel m.cache gpath with
    | some c1 => ⟨d5, c1, true, false⟩
    | none => ⟨d5, m.cache, true, true⟩

/-! ### `disallow` (lines 293-296) and `gdrive_command_simple` (lines 298-345).

Only the remote-effect trace matters for the claims: `exited` records a
`sys.exit(1)`, `deletes` records the ids passed to
`google_api_command('delete', ...)` in order. -/

structure CmdSimpleRes where
  drive : Drive
  cache : Cache
  exited : Bool
  deletes : List String
  ret : Bool
deriving DecidableEq

def gdrive_command_simple (d : Drive) (c : Cache) (cmd gpath : String) : CmdSimpleRes :=
  if cmd = "gclear" then ⟨d, c, true, [], false⟩
  else
    let r := gdrive_find d c gpath
    if r.pid = "" then ⟨r.drive, r.cache, false, [], false⟩
    else if cmd = "delete" then
      ⟨apiDelete r.drive r.pid, r.cache, false, [r.pid], true⟩
    else if cmd = "files" ∨ cmd = "clear" then
      let out := apiListQ r.drive (.nonFolderChildren r.pid)
      let dels := if cmd = "gclear" then out.map (·.id) else []
      ⟨dels.foldl (fun acc fid => apiDelete acc fid) r.drive, r.cache, false, dels, true⟩
    else ⟨r.drive, r.cache, false, [], true⟩

/-! ### The retry/backoff policy of `google_api_command` (lines 147-203).

An attempt is abstracted as `att retry : Except String A` — either the
result of the dispatched command or the text of the raised exception.  The
runner mirrors the `except` handler: at `retry >= 10` a failure prints the
error and exits; otherwise it sleeps (a rate-limit-dependent delay) and
re-invokes itself with `retry + 1`.  `result = none` models `sys.exit(1)`. -/

def listHasInfix (needle : List Char) : List Char → Bool
  | [] => needle.isEmpty
  | c :: t => needle.isPrefixOf (c :: t) || listHasInfix needle t

/-- Python's `sub in s` substring test. -/
def strContainsSub (hay sub : String) : Bool := listHasInfix sub.data hay.data

def isRateLimitErr (e : String) : Bool :=
  strContainsSub e "User Rate Limit Exceeded" || strContainsSub e "Quota exceeded"

/-- Lines 193-196: `d = (p - g) % 10 if p != g else 1; d = 10 if d == 0
else d; d += 5`. -/
def backoffDelay (p g : Int) : Int :=
  let d0 : Int := if p ≠ g then (p - g) % 10 else 1
  let d1 : Int := if d0 = 0 then 10 else d0
  d1 + 5

structure ApiRunRes (α : Type) where
  result : Option α
  sleeps : List Int
  attemptsMade : Nat
  finalError : Option String
deriving DecidableEq

def apiRetryRun {α : Type} (att : Nat → Except String α) (p g : Int) (retry : Nat) :
    ApiRunRes α :=
  match att retry with
  | .ok a => ⟨some a, [], 1, none⟩
  | .error e =>
    if h : 10 ≤ retry then ⟨none, [], 1, some e⟩
    else
      let s : Int := if isRateLimitErr e then backoffDelay p g else 3
      let r := apiRetryRun att p g (retry + 1)
      ⟨r.result, s :: r.sleeps, r.attemptsMade + 1, r.finalError⟩
termination_by 10 - retry
decreasing_by omega

/-! ### Pagination of `google_api_command('list', ...)` (lines 151-165).

The remote's successive responses along the `nextPageToken` chain are
abstracted as a finite list of pages; `files? = none` models a response
without a `files` field, `more` the presence of a `nextPageToken`. -/

structure Page (α : Type) where
  files? : Option (List α)
  more : Bool
deriving DecidableEq

def google_api_list {α : Type} : List (Page α) → List α
  | [] => []
  | pg :: rest =>
    match pg.files? with
    | none => []
    | some fs => if pg.more then fs ++ google_api_list rest else fs

/-- Builds the page chain for responses whose `files` field is present,
with a continuation cursor on every page but the last. -/
def mkPages {α : Type} : List (List α) → List (Page α)
  | [] => []
  | [fs] => [⟨some fs, false⟩]
  | fs :: rest => ⟨some fs, true⟩ :: mkPages rest

/-! ### `mutex_lock` (lines 34-49).

`avail i` abstracts whether the `open` + `flock(LOCK_NB | LOCK_EX)` pair
succeeds at the i-th attempt.  `acquiredAt = none` together with
`exited = true` models the `sys.exit(1)` after the budget is exhausted;
`sleeps` counts the `time.sleep(1)` calls. -/

structure MutexRes where
  acquiredAt : Option Nat
  attempts : Nat
  sleeps : Nat
  exited : Bool
deriving DecidableEq

def mutexTry (avail : Nat → Bool) : Nat → Nat → MutexRes
  | 0, _ => ⟨none, 0, 0, true⟩
  | rem + 1, i =>
    if avail i then ⟨some i, 1, 0, false⟩
    else
      let r := mutexTry avail rem (i + 1)
      ⟨r.acquiredAt, r.attempts + 1, r.sleeps + 1, r.exited⟩

def mutex_lock (avail : Nat → Bool) (wait : Nat) : MutexRes :=
  mutexTry avail wait 0

/-- The delay in the words of the specification: `(processID - processGroupID)
mod 10`, floor 1 used when the two ids are equal, a zero residue mapped to 10,
plus a fixed 5-second offset. -/
def claimDelay (p g : Int) : Int :=
  (if p = g then 1 else if (p - g) % 10 = 0 then 10 else (p - g) % 10) + 5

/-! ### The read-only walk of `gdrive_mkdir` (claims C5, C6).

`walkResolves` records whether every segment of the walk resolves via the
cache or a remote folder lookup; it is the branch structure of the walk
itself, extracted as a Boolean so the "missing segment" premise of the
read-only claim can be stated. -/

def walkResolves : List String → Drive → Cache → String → String → Bool
  | [], _, _, _, _ => true
  | subdir :: rest, d, c, pid, cpath =>
    let cpath' := joinSeg cpath subdir
    match cacheHit c cpath' with
    | some v => walkResolves rest d c v cpath'
    | none =>
      match apiListQ d (.folderChild pid subdir) with
      | f :: _ => walkResolves rest d (cacheSet c cpath' f.id) f.id cpath'
      | [] => false

/-! ### Chain creation by `gdrive_mkdir` (claim C1).

Over an empty remote tree a non-readonly walk creates one folder per
segment; `chainFiles segs pid n` is the resulting block of folder objects
(the first parented under `pid`, each next one under its predecessor, with
ids `mkId n`, `mkId (n+1)`, ...), `chainLast` the id it returns and
`chainCache` the cache entries it adds. -/

def chainFiles : List String → String → Nat → List GFile
  | [], _, _ => []
  | s :: rest, pid, n => ⟨mkId n, s, [pid], fmime, false⟩ :: chainFiles rest (mkId n) (n + 1)

def chainLast : List String → String → Nat → String
  | [], pid, _ => pid
  | _ :: rest, _, n => chainLast rest (mkId n) (n + 1)

def chainCache : List String → String → Nat → Cache → Cache
  | [], _, _, c => c
  | s :: rest, cpath, n, c =>
    chainCache rest (joinSeg cpath s) (n + 1) (cacheSet c (joinSeg cpath s) (mkId n))

/-- The path of the first `k` segments, as accumulated by the walk. -/
def segPath (cpath : String) : List String → String
  | [] => cpath
  | s :: rest => segPath (joinSeg cpath s) rest

/-- The second resolution done by `gdrive_backup` (line 276): the object at
`folder/name`, after the resolution of `folder` itself. -/
def backupR2 (d : Drive) (c : Cache) (folder nm : String) : FindRes :=
  gdrive_find (gdrive_find d c folder).drive (gdrive_find d c folder).cache
    (posixJoin folder nm)

/-- The `folder/old` resolution-or-creation done by `gdrive_backup`
(line 279). -/
def backupM (d : Drive) (c : Cache) (folder nm : String) : MkdirRes :=
  gdrive_mkdir (backupR2 d c folder nm).drive (backupR2 d c folder nm).cache
    (posixJoin folder "old") false

/-- The suffix index chosen by the `.bak` probe of `gdrive_backup`
(lines 280-283). -/
def backupProbeIdx (d : Drive) (c : Cache) (folder nm : String) : Nat :=
  probeBak (backupM d c folder nm).drive (backupM d c folder nm).pid nm
    ((backupM d c folder nm).drive.files.length + 1) 0

theorem natDigits_lt (n : Nat) (h : n < 10) : natDigits n = [Nat.digitChar n] := by
  rw [natDigits]; simp [h]

theorem natDigits_ge (n : Nat) (h : ¬ n < 10) :
    natDigits n = natDigits (n / 10) ++ [Nat.digitChar (n % 10)] := by
  rw [natDigits]; simp [h]

theorem natDigits_ne_nil (n : Nat) : natDigits n ≠ [] := by
  rw [natDigits]
  split <;> simp

theorem toDigitsCore_eq (fuel : Nat) : ∀ (n : Nat) (ds : List Char), n < fuel →
    Nat.toDigitsCore 10 fuel n ds = natDigits n ++ ds := by
  induction fuel with
  | zero => intro n ds h; omega
  | succ fuel ih =>
    intro n ds _
    rw [Nat.toDigitsCore]
    by_cases h10 : n / 10 = 0
    · have hn : n < 10 := by omega
      simp only [h10, if_true, natDigits_lt n hn]
      rw [Nat.mod_eq_of_lt hn]
      rfl
    · have hn : ¬ n < 10 := by
        intro hlt
        exact h10 (Nat.div_eq_of_lt hlt)
      simp only [h10, if_false]
      rw [ih (n / 10) _ (by omega), natDigits_ge n hn]
      simp

theorem digitVal_digitChar (d : Nat) (h : d < 10) : digitVal (Nat.digitChar d) = d := by
  interval_cases d <;> rfl

theorem valOfDigits_append_one (ds : List Char) (c : Char) :
    valOfDigits (ds ++ [c]) = valOfDigits ds * 10 + digitVal c := by
  simp [valOfDigits, List.foldl_append]

theorem valOfDigits_natDigits (n : Nat) : valOfDigits (natDigits n) = n := by
  induction n using Nat.strong_induction_on with
  | _ n ih =>
    by_cases h : n < 10
    · rw [natDigits_lt n h]
      simp [valOfDigits, digitVal_digitChar n h]
    · rw [natDigits_ge n h, valOfDigits_append_one,
        ih (n / 10) (Nat.div_lt_self (by omega) (by omega)),
        digitVal_digitChar _ (Nat.mod_lt _ (by omega))]
      omega

theorem natDigits_injective (m n : Nat) (h : natDigits m = natDigits n) : m = n := by
  have hm := valOfDigits_natDigits m
  rw [h, valOfDigits_natDigits] at hm
  omega

theorem natRepr_eq (n : Nat) : Nat.repr n = (natDigits n).asString := by
  show (Nat.toDigits 10 n).asString = _
  rw [Nat.toDigits, toDigitsCore_eq (n + 1) n [] (Nat.lt_succ_self n)]
  simp [List.asString]

theorem natRepr_data (n : Nat) : (Nat.repr n).data = natDigits n := by
  rw [natRepr_eq]; rfl

theorem natRepr_injective (m n : Nat) (h : Nat.repr m = Nat.repr n) : m = n := by
  apply natDigits_injective
  rw [← natRepr_data, ← natRepr_data, h]

theorem natRepr_ne_empty (n : Nat) : Nat.repr n ≠ "" := by
  intro h
  have hd := congrArg String.data h
  rw [natRepr_data] at hd
  exact natDigits_ne_nil n hd

theorem strLength_pos (s : String) (h : s ≠ "") : 0 < s.length := by
  cases s with
  | mk data =>
    cases data with
    | nil => exact absurd rfl h
    | cons c cs => simp [String.length]

theorem joinSeg_length (cpath subdir : String) (h : subdir ≠ "") :
    cpath.length < (joinSeg cpath subdir).length := by
  rw [joinSeg]
  split
  · simp only [String.length_append]
    have := strLength_pos subdir h
    omega
  · rename_i hc
    simp only [ne_eq, not_not] at hc
    subst hc
    have h1 : ("" : String).length = 0 := rfl
    have h2 := strLength_pos subdir h
    omega

theorem mkId_injective (m n : Nat) (h : mkId m = mkId n) : m = n := by
  have hd := congrArg String.data h
  simp only [mkId, String.data_append] at hd
  exact natRepr_injective m n (congrArg String.mk (List.append_cancel_left hd))

theorem root_ne_mkId (n : Nat) : "root" ≠ mkId n := by
  intro h
  have hd := congrArg String.data h
  rw [show ("root" : String).data = ['r', 'o', 'o', 't'] from rfl] at hd
  simp only [mkId, String.data_append,
    show ("gid" : String).data = ['g', 'i', 'd'] from rfl, List.cons_append,
    List.cons.injEq] at hd
  exact absurd hd.1 (by decide)

/-! ### Unfolding lemmas for `apiRetryRun`. -/

theorem apiRetryRun_ok {α : Type} (att : Nat → Except String α) (p g : Int) (retry : Nat)
    (a : α) (h : att retry = .ok a) : apiRetryRun att p g retry = ⟨some a, [], 1, none⟩ := by
  conv_lhs => rw [apiRetryRun]
  rw [h]

theorem apiRetryRun_fatal {α : Type} (att : Nat → Except String α) (p g : Int) (retry : Nat)
    (e : String) (h : att retry = .error e) (hr : 10 ≤ retry) :
    apiRetryRun att p g retry = ⟨none, [], 1, some e⟩ := by
  conv_lhs => rw [apiRetryRun]
  rw [h]
  simp [hr]

theorem apiRetryRun_retry {α : Type} (att : Nat → Except String α) (p g : Int) (retry : Nat)
    (e : String) (h : att retry = .error e) (hr : retry < 10) :
    apiRetryRun att p g retry
      = ⟨(apiRetryRun att p g (retry + 1)).result,
         (if isRateLimitErr e then backoffDelay p g else 3) :: (apiRetryRun att p g (retry + 1)).sleeps,
         (apiRetryRun att p g (retry + 1)).attemptsMade + 1,
         (apiRetryRun att p g (retry + 1)).finalError⟩ := by
  conv_lhs => rw [apiRetryRun]
  rw [h]
  simp [Nat.not_le.mpr hr]

theorem claimDelay_eq_backoffDelay (p g : Int) : claimDelay p g = backoffDelay p g := by
  have h1 : (0 : Int) ≤ (p - g) % 10 := Int.emod_nonneg _ (by norm_num)
  have h2 : (p - g) % 10 < 10 := Int.emod_lt_of_pos _ (by norm_num)
  simp only [claimDelay, backoffDelay]
  split_ifs <;> omega

theorem backoffDelay_bounds (p g : Int) : 6 ≤ backoffDelay p g ∧ backoffDelay p g ≤ 15 := by
  have h1 : (0 : Int) ≤ (p - g) % 10 := Int.emod_nonneg _ (by norm_num)
  have h2 : (p - g) % 10 < 10 := Int.emod_lt_of_pos _ (by norm_num)
  simp only [backoffDelay]
  split_ifs <;> omega

/-- Claim C3: on a remote-call failure whose error text indicates a rate or
quota limit, `google_api_command` sleeps a deterministic delay equal to
`(pid - pgid) mod 10` with floor 1 (used when the two ids are equal), a zero
residue mapped to 10, plus a fixed 5-second offset (hence always between 6
and 15 seconds); on any other failure it sleeps a fixed 3 seconds; in both
cases it then retries the same command with the retry count incremented. -/
theorem gapi_backoff_policy {α : Type} (att : Nat → Except String α) (p g : Int)
    (retry : Nat) (e : String) (hatt : att retry = .error e) (hr : retry < 10) :
    (apiRetryRun att p g retry).sleeps
      = (if isRateLimitErr e then claimDelay p g else 3)
          :: (apiRetryRun att p g (retry + 1)).sleeps
    ∧ (apiRetryRun att p g retry).result = (apiRetryRun att p g (retry + 1)).result
    ∧ (apiRetryRun att p g retry).attemptsMade
        = (apiRetryRun att p g (retry + 1)).attemptsMade + 1
    ∧ claimDelay p g = backoffDelay p g
    ∧ 6 ≤ claimDelay p g ∧ claimDelay p g ≤ 15 := by
  have hb := backoffDelay_bounds p g
  have hc := claimDelay_eq_backoffDelay p g
  rw [apiRetryRun_retry att p g retry e hatt hr]
  exact ⟨by rw [hc], rfl, rfl, hc, by omega, by omega⟩

/-- Witness for C3 at a concrete quota-exceeded failure. -/
theorem gapi_backoff_policy_witness :
    (apiRetryRun (fun _ => (Except.error "Quota exceeded" : Except String Nat)) 12 2 0).sleeps
      = (if isRateLimitErr "Quota exceeded" then claimDelay 12 2 else 3)
          :: (apiRetryRun (fun _ => (Except.error "Quota exceeded" : Except String Nat)) 12 2 1).sleeps
    ∧ (apiRetryRun (fun _ => (Except.error "Quota exceeded" : Except String Nat)) 12 2 0).result
        = (apiRetryRun (fun _ => (Except.error "Quota exceeded" : Except String Nat)) 12 2 1).result
    ∧ (apiRetryRun (fun _ => (Except.error "Quota exceeded" : Except String Nat)) 12 2 0).attemptsMade
        = (apiRetryRun (fun _ => (Except.error "Quota exceeded" : Except String Nat)) 12 2 1).attemptsMade + 1
    ∧ claimDelay 12 2 = backoffDelay 12 2
    ∧ 6 ≤ claimDelay 12 2 ∧ claimDelay 12 2 ≤ 15 :=
  gapi_backoff_policy (fun _ => (Except.error "Quota exceeded" : Except String Nat)) 12 2 0
    "Quota exceeded" rfl (by omega)

/-! ### Pagination lemmas. -/

theorem google_api_list_mkPages {α : Type} (fss : List (List α)) :
    google_api_list (mkPages fss) = fss.flatten := by
  induction fss with
  | nil => rfl
  | cons fs rest ih =>
    cases rest with
    | nil => simp [mkPages, google_api_list]
    | cons gs rest' => simp [mkPages, google_api_list, ih]

/-- Claim C2: a list command returns the concatenation, in page order, of the
`files` entries of every page along the continuation-cursor chain; a response
with no `files` field yields an empty sequence rather than an error; and 3
pages of 1000/1000/42 items aggregate to a single 2042-item sequence. -/
theorem gapi_list_pagination :
    (∀ (α : Type) (fss : List (List α)), google_api_list (mkPages fss) = fss.flatten)
    ∧ (∀ (α : Type) (b : Bool) (rest : List (Page α)),
        google_api_list (⟨none, b⟩ :: rest) = [])
    ∧ (google_api_list (mkPages [List.range 1000, List.range 1000, List.range 42])).length
        = 2042 := by
  refine ⟨fun α fss => google_api_list_mkPages fss, fun α b rest => rfl, ?_⟩
  rw [google_api_list_mkPages]
  simp

/-! ### The mutex loop. -/

theorem mutexTry_spec (avail : Nat → Bool) :
    ∀ (rem i : Nat),
      (mutexTry avail rem i).attempts ≤ rem
      ∧ (∀ k, (mutexTry avail rem i).acquiredAt = some k →
          i ≤ k ∧ k < i + rem ∧ avail k = true ∧ (∀ j, i ≤ j → j < k → avail j = false)
          ∧ (mutexTry avail rem i).exited = false
          ∧ (mutexTry avail rem i).attempts = k + 1 - i
          ∧ (mutexTry avail rem i).sleeps = k - i)
      ∧ ((mutexTry avail rem i).acquiredAt = none →
          (mutexTry avail rem i).exited = true
          ∧ (mutexTry avail rem i).attempts = rem
          ∧ (mutexTry avail rem i).sleeps = rem
          ∧ (∀ j, i ≤ j → j < i + rem → avail j = false)) := by
  intro rem
  induction rem with
  | zero =>
    intro i
    refine ⟨Nat.le_refl 0, ?_, ?_⟩
    · intro k hk
      simp [mutexTry] at hk
    · intro _
      refine ⟨rfl, rfl, rfl, ?_⟩
      intro j h1 h2
      omega
  | succ rem ih =>
    intro i
    by_cases hav : avail i
    · have hstep : mutexTry avail (rem + 1) i = ⟨some i, 1, 0, false⟩ := by
        simp [mutexTry, hav]
      rw [hstep]
      refine ⟨by show 1 ≤ rem + 1; omega, ?_, ?_⟩
      · intro k hk
        simp only [Option.some.injEq] at hk
        subst hk
        exact ⟨Nat.le_refl i, by omega, hav, fun j h1 h2 => by omega, rfl,
          by show 1 = i + 1 - i; omega, by show 0 = i - i; omega⟩
      · intro hk
        simp at hk
    · have havf : avail i = false := by simpa using hav
      have hstep : mutexTry avail (rem + 1) i
          = ⟨(mutexTry avail rem (i + 1)).acquiredAt, (mutexTry avail rem (i + 1)).attempts + 1,
             (mutexTry avail rem (i + 1)).sleeps + 1, (mutexTry avail rem (i + 1)).exited⟩ := by
        simp [mutexTry, havf]
      obtain ⟨ih1, ih2, ih3⟩ := ih (i + 1)
      rw [hstep]
      refine ⟨by simp only []; omega, ?_, ?_⟩
      · intro k hk
        simp only [] at hk
        obtain ⟨k1, k2, k3, k4, k5, k6, k7⟩ := ih2 k hk
        refine ⟨by omega, by omega, k3, ?_, k5, by simp only []; omega, by simp only []; omega⟩
        intro j h1 h2
        rcases Nat.eq_or_lt_of_le h1 with h | h
        · rwa [← h]
        · exact k4 j h h2
      · intro hk
        simp only [] at hk
        obtain ⟨k1, k2, k3, k4⟩ := ih3 hk
        refine ⟨k1, by simp only []; omega, by simp only []; omega, ?_⟩
        intro j h1 h2
        rcases Nat.eq_or_lt_of_le h1 with h | h
        · rwa [← h]
        · exact k4 j h (by omega)

/-- Claim C9: `mutex_lock` performs at most `w` non-blocking lock attempts,
sleeps one second after each failed attempt, and either returns the lock
acquired at the first available attempt (without exiting) or, after all `w`
attempts fail, exits fatally; it never waits past the budget and never
returns without the lock. -/
theorem mutex_lock_bounded (avail : Nat → Bool) (w : Nat) :
    (mutex_lock avail w).attempts ≤ w
    ∧ (∀ k, (mutex_lock avail w).acquiredAt = some k →
        k < w ∧ avail k = true ∧ (∀ j, j < k → avail j = false)
        ∧ (mutex_lock avail w).exited = false
        ∧ (mutex_lock avail w).attempts = k + 1
        ∧ (mutex_lock avail w).sleeps = k)
    ∧ ((mutex_lock avail w).acquiredAt = none →
        (mutex_lock avail w).exited = true
        ∧ (mutex_lock avail w).attempts = w
        ∧ (mutex_lock avail w).sleeps = w
        ∧ (∀ j, j < w → avail j = false))
    ∧ ((mutex_lock avail w).exited = false → ∃ k, (mutex_lock avail w).acquiredAt = some k) := by
  simp only [mutex_lock]
  obtain ⟨h1, h2, h3⟩ := mutexTry_spec avail w 0
  refine ⟨h1, ?_, ?_, ?_⟩
  · intro k hk
    obtain ⟨k1, k2, k3, k4, k5, k6, k7⟩ := h2 k hk
    exact ⟨by omega, k3, fun j hj => k4 j (Nat.zero_le j) hj, k5, by omega, by omega⟩
  · intro hk
    obtain ⟨k1, k2, k3, k4⟩ := h3 hk
    exact ⟨k1, k2, k3, fun j hj => k4 j (Nat.zero_le j) (by omega)⟩
  · intro hex
    cases hacq : (mutexTry avail w 0).acquiredAt with
    | some k => exact ⟨k, rfl⟩
    | none => rw [(h3 hacq).1] at hex; cases hex

/-- Witness for C9 at a concrete availability pattern and budget. -/
theorem mutex_lock_bounded_witness :
    (mutex_lock (fun i => i == 2) 5).attempts ≤ 5
    ∧ (mutex_lock (fun i => i == 2) 5).acquiredAt = some 2 :=
  ⟨(mutex_lock_bounded (fun i => i == 2) 5).1, by decide⟩

/-! ### Cache lemmas. -/

theorem cacheLookup_eq_none (c : Cache) (k : String) (h : ∀ kv ∈ c, (kv : String × String).1 ≠ k) :
    cacheLookup c k = none := by
  have hf : c.find? (fun p => decide (p.1 = k)) = none := by
    rw [List.find?_eq_none]
    intro kv hm
    simpa using h kv hm
  rw [cacheLookup, hf]
  rfl

theorem cacheHit_eq_none (c : Cache) (k : String) (h : cacheLookup c k = none) :
    cacheHit c k = none := by
  rw [cacheHit, h]

theorem cacheHit_lookup_some (c : Cache) (k w : String) (hl : cacheLookup c k = some w) :
    cacheHit c k = if w = "" then none else some w := by
  rw [cacheHit, hl]

theorem cacheHit_mem (c : Cache) (k v : String) (h : cacheHit c k = some v) :
    ∃ kv ∈ c, (kv : String × String).2 = v ∧ v ≠ "" := by
  cases hl : cacheLookup c k with
  | none => rw [cacheHit_eq_none c k hl] at h; cases h
  | some w =>
    rw [cacheHit_lookup_some c k w hl] at h
    by_cases hw : w = ""
    · rw [if_pos hw] at h; cases h
    · rw [if_neg hw] at h
      injection h with hwv
      subst hwv
      rw [cacheLookup] at hl
      cases hf : c.find? (fun p => decide (p.1 = k)) with
      | none => rw [hf] at hl; cases hl
      | some kv =>
        rw [hf] at hl
        have hkv : kv.2 = w := by simpa using hl
        exact ⟨kv, List.mem_of_find?_eq_some hf, hkv, hw⟩

theorem cacheLookup_set_self (c : Cache) (k v : String) :
    cacheLookup (cacheSet c k v) k = some v := by
  simp [cacheLookup, cacheSet, List.find?_cons]

theorem cacheLookup_filter_ne (c : Cache) (a k : String) (h : k ≠ a) :
    cacheLookup (c.filter (fun p => decide (p.1 ≠ a))) k = cacheLookup c k := by
  induction c with
  | nil => rfl
  | cons kv rest ih =>
    by_cases hka : kv.1 = a
    · have hfc : List.filter (fun p => decide (p.1 ≠ a)) (kv :: rest)
          = List.filter (fun p => decide (p.1 ≠ a)) rest := by
        simp [List.filter_cons, hka]
      have hno : ¬ kv.1 = k := by rw [hka]; exact fun he => h he.symm
      have hlc : cacheLookup (kv :: rest) k = cacheLookup rest k := by
        simp [cacheLookup, List.find?_cons, hno]
      rw [hfc, hlc]
      exact ih
    · have hfc : List.filter (fun p => decide (p.1 ≠ a)) (kv :: rest)
          = kv :: List.filter (fun p => decide (p.1 ≠ a)) rest := by
        simp [List.filter_cons, hka]
      rw [hfc]
      by_cases hkk : kv.1 = k
      · simp [cacheLookup, List.find?_cons, hkk]
      · have h1 : cacheLookup (kv :: List.filter (fun p => decide (p.1 ≠ a)) rest) k
            = cacheLookup (List.filter (fun p => decide (p.1 ≠ a)) rest) k := by
          simp [cacheLookup, List.find?_cons, hkk]
        have h2 : cacheLookup (kv :: rest) k = cacheLookup rest k := by
          simp [cacheLookup, List.find?_cons, hkk]
        rw [h1, h2]
        exact ih

theorem cacheLookup_set_ne (c : Cache) (a v k : String) (h : k ≠ a) :
    cacheLookup (cacheSet c a v) k = cacheLookup c k := by
  have hno : ¬ a = k := fun he => h he.symm
  have h1 : cacheLookup ((a, v) :: c.filter (fun p => decide (p.1 ≠ a))) k
      = cacheLookup (c.filter (fun p => decide (p.1 ≠ a))) k := by
    simp [cacheLookup, List.find?_cons, hno]
  rw [cacheSet, h1]
  exact cacheLookup_filter_ne c a k h

theorem cacheLookup_filter_self (c : Cache) (k : String) :
    cacheLookup (c.filter (fun p => decide (p.1 ≠ k))) k = none := by
  apply cacheLookup_eq_none
  intro kv hm
  have := (List.mem_filter.mp hm).2
  simpa using this

theorem cacheSet_mem (c : Cache) (k v : String) (kv : String × String)
    (h : kv ∈ cacheSet c k v) : kv = (k, v) ∨ kv ∈ c := by
  rcases List.mem_cons.mp h with h | h
  · exact Or.inl h
  · exact Or.inr (List.mem_filter.mp h).1

theorem cacheLookup_set_isSome (c : Cache) (a v k : String)
    (h : (cacheLookup c k).isSome = true) :
    (cacheLookup (cacheSet c a v) k).isSome = true := by
  by_cases hk : k = a
  · subst hk
    rw [cacheLookup_set_self]
    rfl
  · rw [cacheLookup_set_ne c a v k hk]
    exact h

/-! ### Query lemmas. -/

theorem apiListQ_mem (d : Drive) (q : Query) (f : GFile) (h : f ∈ apiListQ d q) :
    f ∈ d.files ∧ matchesQuery q f := by
  have := List.mem_filter.mp h
  exact ⟨this.1, of_decide_eq_true this.2⟩

theorem apiListQ_eq_nil (d : Drive) (q : Query) (h : ∀ f ∈ d.files, ¬ matchesQuery q f) :
    apiListQ d q = [] := by
  rw [apiListQ, List.filter_eq_nil_iff]
  intro f hm
  simpa using h f hm

theorem mkdirWalk_readonly (segs : List String) :
    ∀ (d : Drive) (c : Cache) (pid cpath : String),
      (mkdirWalk true segs d c pid cpath).drive = d
      ∧ (mkdirWalk true segs d c pid cpath).creates = 0
      ∧ ((mkdirWalk true segs d c pid cpath).pid = ""
          ∨ (mkdirWalk true segs d c pid cpath).pid = pid
          ∨ (∃ f ∈ d.files, f.id = (mkdirWalk true segs d c pid cpath).pid)
          ∨ (∃ kv ∈ c, (kv : String × String).2 = (mkdirWalk true segs d c pid cpath).pid))
      ∧ (walkResolves segs d c pid cpath = false → (mkdirWalk true segs d c pid cpath).pid = "") := by
  induction segs with
  | nil =>
    intro d c pid cpath
    refine ⟨rfl, rfl, Or.inr (Or.inl rfl), ?_⟩
    intro h
    simp [walkResolves] at h
  | cons subdir rest ih =>
    intro d c pid cpath
    have hwalk : mkdirWalk true (subdir :: rest) d c pid cpath
        = (match cacheHit c (joinSeg cpath subdir) with
           | some v => mkdirWalk true rest d c v (joinSeg cpath subdir)
           | none =>
             match apiListQ d (.folderChild pid subdir) with
             | f :: _ => mkdirWalk true rest d (cacheSet c (joinSeg cpath subdir) f.id) f.id
                 (joinSeg cpath subdir)
             | [] => ⟨d, c, "", 0⟩) := by
      rfl
    have hres : walkResolves (subdir :: rest) d c pid cpath
        = (match cacheHit c (joinSeg cpath subdir) with
           | some v => walkResolves rest d c v (joinSeg cpath subdir)
           | none =>
             match apiListQ d (.folderChild pid subdir) with
             | f :: _ => walkResolves rest d (cacheSet c (joinSeg cpath subdir) f.id) f.id
                 (joinSeg cpath subdir)
             | [] => false) := by
      rw [walkResolves]
    cases hc : cacheHit c (joinSeg cpath subdir) with
    | some v =>
      rw [hc] at hwalk hres
      obtain ⟨i1, i2, i3, i4⟩ := ih d c v (joinSeg cpath subdir)
      rw [hwalk, hres]
      refine ⟨i1, i2, ?_, i4⟩
      rcases i3 with h | h | h | h
      · exact Or.inl h
      · obtain ⟨kv, hkv, hv, _⟩ := cacheHit_mem c (joinSeg cpath subdir) v hc
        exact Or.inr (Or.inr (Or.inr ⟨kv, hkv, by rw [hv, h]⟩))
      · exact Or.inr (Or.inr (Or.inl h))
      · exact Or.inr (Or.inr (Or.inr h))
    | none =>
      rw [hc] at hwalk hres
      cases hq : apiListQ d (.folderChild pid subdir) with
      | cons f tl =>
        rw [hq] at hwalk hres
        obtain ⟨i1, i2, i3, i4⟩ :=
          ih d (cacheSet c (joinSeg cpath subdir) f.id) f.id (joinSeg cpath subdir)
        rw [hwalk, hres]
        have hfd : f ∈ d.files := (apiListQ_mem d _ f (by rw [hq]; exact List.mem_cons_self f tl)).1
        refine ⟨i1, i2, ?_, i4⟩
        rcases i3 with h | h | h | h
        · exact Or.inl h
        · exact Or.inr (Or.inr (Or.inl ⟨f, hfd, h.symm⟩))
        · exact Or.inr (Or.inr (Or.inl h))
        · obtain ⟨kv, hkv, hv⟩ := h
          rcases cacheSet_mem c (joinSeg cpath subdir) f.id kv hkv with he | he
          · refine Or.inr (Or.inr (Or.inl ⟨f, hfd, ?_⟩))
            rw [← hv, he]
          · exact Or.inr (Or.inr (Or.inr ⟨kv, he, hv⟩))
      | nil =>
        rw [hq] at hwalk hres
        rw [hwalk, hres]
        exact ⟨rfl, rfl, Or.inl rfl, fun _ => rfl⟩

/-- Claim C6: with `readonly=True`, `gdrive_mkdir` never issues a create
call (zero creates, drive unchanged), and whenever some segment of the walk
is neither cached nor found remotely the walk returns the empty string. -/
theorem gdrive_mkdir_readonly_safe (d : Drive) (c : Cache) (dir : String) :
    (gdrive_mkdir d c dir true).creates = 0
    ∧ (gdrive_mkdir d c dir true).drive = d
    ∧ (dir ≠ "" → walkResolves (splitSlash dir) d c "root" "" = false →
        (gdrive_mkdir d c dir true).pid = "") := by
  by_cases hdir : dir = ""
  · subst hdir
    exact ⟨rfl, rfl, fun h _ => absurd rfl h⟩
  · obtain ⟨h1, h2, _, h4⟩ := mkdirWalk_readonly (splitSlash dir) d c "root" ""
    rw [gdrive_mkdir, if_neg hdir]
    exact ⟨h2, h1, fun _ hres => h4 hres⟩

/-- Witness for C6: a two-segment path over an empty remote tree resolves
to not-found without any create. -/
theorem gdrive_mkdir_readonly_safe_witness :
    (gdrive_mkdir ⟨[], 0⟩ [] "x/y" true).creates = 0
    ∧ (gdrive_mkdir ⟨[], 0⟩ [] "x/y" true).pid = "" :=
  ⟨(gdrive_mkdir_readonly_safe ⟨[], 0⟩ [] "x/y").1,
   (gdrive_mkdir_readonly_safe ⟨[], 0⟩ [] "x/y").2.2 (by decide) (by decide)⟩

/-! ### `gdrive_find` resolution facts (claim C5). -/

theorem findParent_spec (d : Drive) (c : Cache) (dir : String) :
    (findParent d c dir).1 = d
    ∧ ((findParent d c dir).2.2 = ""
        ∨ (findParent d c dir).2.2 = "root"
        ∨ (∃ f ∈ d.files, f.id = (findParent d c dir).2.2)
        ∨ (∃ kv ∈ c, (kv : String × String).2 = (findParent d c dir).2.2)) := by
  cases hcd : cacheHit c dir with
  | some v =>
    have he : findParent d c dir = (d, c, v) := by rw [findParent, hcd]
    rw [he]
    obtain ⟨kv, hkv, hv, _⟩ := cacheHit_mem c dir v hcd
    exact ⟨rfl, Or.inr (Or.inr (Or.inr ⟨kv, hkv, hv⟩))⟩
  | none =>
    have he : findParent d c dir
        = (let m := gdrive_mkdir d c dir true; (m.drive, m.cache, m.pid)) := by
      rw [findParent, hcd]
    rw [he]
    by_cases hdir : dir = ""
    · subst hdir
      exact ⟨rfl, Or.inr (Or.inl rfl)⟩
    · have hu : gdrive_mkdir d c dir true = mkdirWalk true (splitSlash dir) d c "root" "" := by
        rw [gdrive_mkdir, if_neg hdir]
      obtain ⟨h1, _, h3, _⟩ := mkdirWalk_readonly (splitSlash dir) d c "root" ""
      simp only [hu]
      refine ⟨h1, ?_⟩
      rcases h3 with h | h | h | h
      · exact Or.inl h
      · exact Or.inr (Or.inl h)
      · exact Or.inr (Or.inr (Or.inl h))
      · exact Or.inr (Or.inr (Or.inr h))

theorem findLeaf_spec (d1 : Drive) (c1 : Cache) (pid gpath file : String) :
    (findLeaf d1 c1 pid gpath file).drive = d1
    ∧ ((findLeaf d1 c1 pid gpath file).pid = ""
        ∨ (findLeaf d1 c1 pid gpath file).pid = pid
        ∨ (∃ f ∈ d1.files, f.id = (findLeaf d1 c1 pid gpath file).pid)) := by
  rw [findLeaf]
  by_cases hp : pid = ""
  · rw [if_pos hp]
    exact ⟨rfl, Or.inl rfl⟩
  · rw [if_neg hp]
    by_cases hf : file = "" ∨ file = "."
    · rw [if_pos hf]
      exact ⟨rfl, Or.inr (Or.inl rfl)⟩
    · rw [if_neg hf]
      cases hq : gdrive_get d1 pid file with
      | nil => exact ⟨rfl, Or.inl rfl⟩
      | cons f tl =>
        have hfd : f ∈ d1.files :=
          (apiListQ_mem d1 _ f (by rw [gdrive_get] at hq; rw [hq]; exact List.mem_cons_self f tl)).1
        exact ⟨rfl, Or.inr (Or.inr ⟨f, hfd, rfl⟩)⟩

theorem gdrive_find_aux (d : Drive) (c : Cache) (gpath : String) :
    (gdrive_find d c gpath).drive = d
    ∧ ((gdrive_find d c gpath).pid = ""
        ∨ (gdrive_find d c gpath).pid = "root"
        ∨ (∃ f ∈ d.files, f.id = (gdrive_find d c gpath).pid)
        ∨ (∃ kv ∈ c, (kv : String × String).2 = (gdrive_find d c gpath).pid)) := by
  cases hcg : cacheHit c gpath with
  | some v =>
    have he : gdrive_find d c gpath = ⟨d, c, v⟩ := by rw [gdrive_find, hcg]
    rw [he]
    obtain ⟨kv, hkv, hv, _⟩ := cacheHit_mem c gpath v hcg
    exact ⟨rfl, Or.inr (Or.inr (Or.inr ⟨kv, hkv, hv⟩))⟩
  | none =>
    have he : gdrive_find d c gpath
        = findLeaf (findParent d c (findDir gpath)).1 (findParent d c (findDir gpath)).2.1
            (findParent d c (findDir gpath)).2.2 gpath (posixBasename gpath) := by
      rw [gdrive_find, hcg]
    obtain ⟨p1, p2⟩ := findParent_spec d c (findDir gpath)
    obtain ⟨l1, l2⟩ := findLeaf_spec (findParent d c (findDir gpath)).1
      (findParent d c (findDir gpath)).2.1 (findParent d c (findDir gpath)).2.2 gpath
      (posixBasename gpath)
    rw [he, l1, p1]
    refine ⟨rfl, ?_⟩
    rw [p1] at l2
    rcases l2 with h | h | h
    · exact Or.inl h
    · rw [h]
      exact p2
    · exact Or.inr (Or.inr (Or.inl h))

/-- Claim C5: for every input path, `gdrive_find` is a total resolver that
returns either the empty string (not-found: a missing parent chain or a
missing leaf is reported as `""`, never as a raised exception — the
embedding is a total function) or an id: the root sentinel, the id of a
remote object of the drive, or a previously cached id (which points to a
remote object by the cache invariant).  The drive is never modified. -/
theorem gdrive_find_not_found_contract (d : Drive) (c : Cache) (gpath : String) :
    (gdrive_find d c gpath).drive = d
    ∧ ((gdrive_find d c gpath).pid = ""
        ∨ (gdrive_find d c gpath).pid = "root"
        ∨ (∃ f ∈ d.files, f.id = (gdrive_find d c gpath).pid)
        ∨ (∃ kv ∈ c, (kv : String × String).2 = (gdrive_find d c gpath).pid)) :=
  gdrive_find_aux d c gpath

/-! ### `gdrive_command_simple` with `clear` / `gclear` (claim C10). -/

theorem cmd_gclear_eq (d : Drive) (c : Cache) (gpath : String) :
    gdrive_command_simple d c "gclear" gpath = ⟨d, c, true, [], false⟩ := by
  rw [gdrive_command_simple, if_pos rfl]

theorem cmd_clear_eq (d : Drive) (c : Cache) (gpath : String) :
    gdrive_command_simple d c "clear" gpath
      = if (gdrive_find d c gpath).pid = ""
        then ⟨(gdrive_find d c gpath).drive, (gdrive_find d c gpath).cache, false, [], false⟩
        else ⟨(gdrive_find d c gpath).drive, (gdrive_find d c gpath).cache, false, [], true⟩ := by
  have h1 : ¬ ("clear" : String) = "gclear" := by decide
  have h2 : ¬ ("clear" : String) = "delete" := by decide
  have h3 : ("clear" : String) = "files" ∨ ("clear" : String) = "clear" := Or.inr rfl
  simp only [gdrive_command_simple, if_neg h1, if_neg h2, if_pos h3, List.foldl_nil,
    eq_self_iff_true, or_true, if_true]

/-- Claim C10: `gdrive_command_simple` with the `clear` command never issues
a delete call (its `files`/`clear` branch guards the delete by
`cmd == 'gclear'`, which cannot hold there) and only lists, leaving the
drive unchanged; `gclear` itself is stopped by `disallow`, which exits the
process before any remote call. -/
theorem gdrive_clear_never_deletes (d : Drive) (c : Cache) (gpath : String) :
    (gdrive_command_simple d c "clear" gpath).deletes = []
    ∧ (gdrive_command_simple d c "clear" gpath).exited = false
    ∧ (gdrive_command_simple d c "clear" gpath).drive = d
    ∧ (gdrive_command_simple d c "gclear" gpath).exited = true
    ∧ (gdrive_command_simple d c "gclear" gpath).deletes = [] := by
  have hd := (gdrive_find_aux d c gpath).1
  rw [cmd_clear_eq, cmd_gclear_eq]
  by_cases hp : (gdrive_find d c gpath).pid = ""
  · rw [if_pos hp]
    exact ⟨rfl, rfl, hd, rfl, rfl⟩
  · rw [if_neg hp]
    exact ⟨rfl, rfl, hd, rfl, rfl⟩

/-! ### `gdrive_delete` (claim C8). -/

theorem apiDelete_files (d : Drive) (fid : String) :
    (apiDelete d fid).files = d.files.filter (fun f => decide (f.id ≠ fid)) := rfl

theorem foldl_apiDelete_files (items : List GFile) : ∀ (d : Drive),
    (items.foldl (fun acc it => apiDelete acc it.id) d).files
      = d.files.filter (fun f => decide (∀ it ∈ items, f.id ≠ it.id)) := by
  induction items with
  | nil =>
    intro d
    simp
  | cons it rest ih =>
    intro d
    rw [List.foldl_cons, ih, apiDelete_files, List.filter_filter]
    apply List.filter_congr
    intro f _
    simp [List.forall_mem_cons, Bool.and_comm]

/-- Counterexample to C8 as stated: with nothing cached for the path,
`gdrive_delete` reaches `del gdriveids[gpath]` with an absent key and
raises `KeyError` (after having performed the remote deletions). -/
theorem gdrive_delete_raises_counterexample :
    (gdrive_delete ⟨[], 0⟩ [] "d" "f").raised = true := by decide

/-- Claim C8 as amended: `gdrive_delete` deletes every remote object
currently found at `folder/name` (zero, one, or many); it evicts the cache
entry for that path and returns without raising when the cache holds an
entry for the path, but raises `KeyError` (leaving the cache unchanged)
when it does not. -/
theorem gdrive_delete_amended (d : Drive) (c : Cache) (folder nm : String) :
    (gdrive_delete d c folder nm).drive.files
      = d.files.filter (fun f => decide (∀ it ∈ gdrive_get d folder nm, f.id ≠ it.id))
    ∧ ((cacheLookup c (posixJoin folder nm)).isSome = true →
        (gdrive_delete d c folder nm).raised = false
        ∧ cacheLookup (gdrive_delete d c folder nm).cache (posixJoin folder nm) = none)
    ∧ ((cacheLookup c (posixJoin folder nm)).isSome = false →
        (gdrive_delete d c folder nm).raised = true
        ∧ (gdrive_delete d c folder nm).cache = c) := by
  by_cases hs : (cacheLookup c (posixJoin folder nm)).isSome = true
  · have hdel : cacheDel c (posixJoin folder nm)
        = some (c.filter (fun p => decide (p.1 ≠ posixJoin folder nm))) := by
      rw [cacheDel, if_pos hs]
    have he : gdrive_delete d c folder nm
        = ⟨(gdrive_get d folder nm).foldl (fun acc it => apiDelete acc it.id) d,
           c.filter (fun p => decide (p.1 ≠ posixJoin folder nm)), false⟩ := by
      simp only [gdrive_delete, hdel]
    rw [he]
    refine ⟨foldl_apiDelete_files _ d, fun _ => ⟨rfl, cacheLookup_filter_self c _⟩, ?_⟩
    intro hf
    rw [hf] at hs
    cases hs
  · have hs' : (cacheLookup c (posixJoin folder nm)).isSome = false := by
      simpa using hs
    have hdel : cacheDel c (posixJoin folder nm) = none := by
      rw [cacheDel, if_neg hs]
    have he : gdrive_delete d c folder nm
        = ⟨(gdrive_get d folder nm).foldl (fun acc it => apiDelete acc it.id) d, c, true⟩ := by
      simp only [gdrive_delete, hdel]
    rw [he]
    refine ⟨foldl_apiDelete_files _ d, ?_, fun _ => ⟨rfl, rfl⟩⟩
    intro ht
    rw [hs'] at ht
    cases ht

/-- Witness for the amended C8: one object at `d/f`, cached; it is deleted
and the cache entry evicted without raising. -/
theorem gdrive_delete_amended_witness :
    (cacheLookup [("d/f", "X")] (posixJoin "d" "f")).isSome = true
    ∧ (gdrive_delete ⟨[⟨"F", "d", ["root"], fmime, false⟩,
        ⟨"X", "f", ["F"], "text/plain", false⟩], 0⟩ [("d/f", "X")] "d" "f").raised = false
    ∧ cacheLookup (gdrive_delete ⟨[⟨"F", "d", ["root"], fmime, false⟩,
        ⟨"X", "f", ["F"], "text/plain", false⟩], 0⟩ [("d/f", "X")] "d" "f").cache
        (posixJoin "d" "f") = none :=
  ⟨by decide,
   ((gdrive_delete_amended ⟨[⟨"F", "d", ["root"], fmime, false⟩,
       ⟨"X", "f", ["F"], "text/plain", false⟩], 0⟩ [("d/f", "X")] "d" "f").2.1 (by decide)).1,
   ((gdrive_delete_amended ⟨[⟨"F", "d", ["root"], fmime, false⟩,
       ⟨"X", "f", ["F"], "text/plain", false⟩], 0⟩ [("d/f", "X")] "d" "f").2.1 (by decide)).2⟩

/-! ### The retry ceiling (claim C4). -/

theorem apiRetryRun_attempts_le {α : Type} (att : Nat → Except String α) (p g : Int) :
    ∀ (fuel retry : Nat), retry + fuel = 10 →
      (apiRetryRun att p g retry).attemptsMade ≤ fuel + 1 := by
  intro fuel
  induction fuel with
  | zero =>
    intro retry h
    cases hatt : att retry with
    | ok a => rw [apiRetryRun_ok att p g retry a hatt]
    | error e => rw [apiRetryRun_fatal att p g retry e hatt (by omega)]
  | succ fuel ih =>
    intro retry h
    cases hatt : att retry with
    | ok a =>
      rw [apiRetryRun_ok att p g retry a hatt]
      show 1 ≤ fuel + 1 + 1
      omega
    | error e =>
      rw [apiRetryRun_retry att p g retry e hatt (by omega)]
      have := ih (retry + 1) (by omega)
      show (apiRetryRun att p g (retry + 1)).attemptsMade + 1 ≤ fuel + 1 + 1
      omega

theorem apiRetryRun_all_fail {α : Type} (att : Nat → Except String α) (p g : Int) :
    ∀ (fuel retry : Nat), retry + fuel = 10 →
      (∀ k, retry ≤ k → k ≤ 10 → ∃ e, att k = .error e) →
      (apiRetryRun att p g retry).result = none
      ∧ ∃ e, att 10 = .error e ∧ (apiRetryRun att p g retry).finalError = some e := by
  intro fuel
  induction fuel with
  | zero =>
    intro retry h hall
    have h10 : retry = 10 := by omega
    subst h10
    obtain ⟨e, he⟩ := hall 10 (Nat.le_refl 10) (Nat.le_refl 10)
    rw [apiRetryRun_fatal att p g 10 e he (Nat.le_refl 10)]
    exact ⟨rfl, e, he, rfl⟩
  | succ fuel ih =>
    intro retry h hall
    obtain ⟨e, he⟩ := hall retry (Nat.le_refl retry) (by omega)
    rw [apiRetryRun_retry att p g retry e he (by omega)]
    obtain ⟨r1, e', he', hf⟩ := ih (retry + 1) (by omega) (fun k hk1 hk2 => hall k (by omega) hk2)
    exact ⟨r1, e', he', hf⟩

theorem apiRetryRun_first_ok {α : Type} (att : Nat → Except String α) (p g : Int) :
    ∀ (fuel retry k : Nat) (a : α), retry + fuel = 10 → retry ≤ k → k ≤ 10 →
      att k = .ok a → (∀ j, retry ≤ j → j < k → ∃ e, att j = .error e) →
      (apiRetryRun att p g retry).result = some a := by
  intro fuel
  induction fuel with
  | zero =>
    intro retry k a h hk1 hk2 hok _
    have h1 : retry = 10 := by omega
    subst h1
    have h2 : k = 10 := by omega
    subst h2
    rw [apiRetryRun_ok att p g 10 a hok]
  | succ fuel ih =>
    intro retry k a h hk1 hk2 hok hfail
    rcases Nat.eq_or_lt_of_le hk1 with he | hlt
    · subst he
      rw [apiRetryRun_ok att p g retry a hok]
    · obtain ⟨e, hee⟩ := hfail retry (Nat.le_refl retry) hlt
      rw [apiRetryRun_retry att p g retry e hee (by omega)]
      exact ih (retry + 1) k a (by omega) hlt hk2 hok (fun j hj1 hj2 => hfail j (by omega) hj2)

/-- Claim C4: `google_api_command` retries at most 10 times (at most 11
attempts); if attempts 0 through 10 all fail it terminates fatally
(`result = none` models `sys.exit(1)`), reporting the final error, never
returning a partial result; a call that first succeeds at attempt `k ≤ 10`
returns that attempt's result. -/
theorem gapi_retry_ceiling {α : Type} (att : Nat → Except String α) (p g : Int) :
    (apiRetryRun att p g 0).attemptsMade ≤ 11
    ∧ ((∀ k, k ≤ 10 → ∃ e, att k = .error e) →
        (apiRetryRun att p g 0).result = none
        ∧ ∃ e, att 10 = .error e ∧ (apiRetryRun att p g 0).finalError = some e)
    ∧ (∀ (k : Nat) (a : α), k ≤ 10 → att k = .ok a →
        (∀ j, j < k → ∃ e, att j = .error e) →
        (apiRetryRun att p g 0).result = some a) := by
  refine ⟨apiRetryRun_attempts_le att p g 10 0 rfl, ?_, ?_⟩
  · intro hall
    exact apiRetryRun_all_fail att p g 10 0 rfl (fun k _ hk2 => hall k hk2)
  · intro k a hk hok hfail
    exact apiRetryRun_first_ok att p g 10 0 k a rfl (Nat.zero_le k) hk hok
      (fun j _ hj => hfail j hj)

/-- Witness for C4: a persistently failing call exits fatally; a call that
fails 3 times then succeeds returns the success result of the 4th attempt. -/
theorem gapi_retry_ceiling_witness :
    (apiRetryRun (fun _ => (Except.error "boom" : Except String Nat)) 0 0 0).result = none
    ∧ (apiRetryRun
        (fun n => if n < 3 then (Except.error "Quota exceeded" : Except String Nat)
                  else .ok 7) 0 0 0).result = some 7 :=
  ⟨((gapi_retry_ceiling (fun _ => (Except.error "boom" : Except String Nat)) 0 0).2.1
      (fun k _ => ⟨"boom", rfl⟩)).1,
   (gapi_retry_ceiling
      (fun n => if n < 3 then (Except.error "Quota exceeded" : Except String Nat) else .ok 7)
      0 0).2.2 3 7 (by omega) rfl
      (fun j hj => ⟨"Quota exceeded", by rw [if_pos hj]⟩)⟩

theorem mkId_ne_empty (n : Nat) : mkId n ≠ "" := by
  intro h
  have h1 := congrArg String.length h
  rw [mkId, String.length_append] at h1
  have h2 : ("gid" : String).length = 3 := rfl
  have h3 : ("" : String).length = 0 := rfl
  omega

theorem mkdirWalk_cons_hit (ro : Bool) (s : String) (rest : List String) (d : Drive)
    (c : Cache) (pid cpath v : String) (h : cacheHit c (joinSeg cpath s) = some v) :
    mkdirWalk ro (s :: rest) d c pid cpath = mkdirWalk ro rest d c v (joinSeg cpath s) := by
  have he : mkdirWalk ro (s :: rest) d c pid cpath
      = (match cacheHit c (joinSeg cpath s) with
         | some v => mkdirWalk ro rest d c v (joinSeg cpath s)
         | none =>
           match apiListQ d (.folderChild pid s) with
           | f :: _ => mkdirWalk ro rest d (cacheSet c (joinSeg cpath s) f.id) f.id
               (joinSeg cpath s)
           | [] =>
             if ro then ⟨d, c, "", 0⟩
             else
               let r := mkdirWalk ro rest (apiCreate d s fmime [pid]).1
                 (cacheSet c (joinSeg cpath s) (apiCreate d s fmime [pid]).2)
                 (apiCreate d s fmime [pid]).2 (joinSeg cpath s)
               { r with creates := r.creates + 1 }) := rfl
  rw [he, h]

theorem mkdirWalk_cons_create (s : String) (rest : List String) (d : Drive) (c : Cache)
    (pid cpath : String) (hh : cacheHit c (joinSeg cpath s) = none)
    (hq : apiListQ d (.folderChild pid s) = []) :
    mkdirWalk false (s :: rest) d c pid cpath
      = ⟨(mkdirWalk false rest (apiCreate d s fmime [pid]).1
            (cacheSet c (joinSeg cpath s) (apiCreate d s fmime [pid]).2)
            (apiCreate d s fmime [pid]).2 (joinSeg cpath s)).drive,
         (mkdirWalk false rest (apiCreate d s fmime [pid]).1
            (cacheSet c (joinSeg cpath s) (apiCreate d s fmime [pid]).2)
            (apiCreate d s fmime [pid]).2 (joinSeg cpath s)).cache,
         (mkdirWalk false rest (apiCreate d s fmime [pid]).1
            (cacheSet c (joinSeg cpath s) (apiCreate d s fmime [pid]).2)
            (apiCreate d s fmime [pid]).2 (joinSeg cpath s)).pid,
         (mkdirWalk false rest (apiCreate d s fmime [pid]).1
            (cacheSet c (joinSeg cpath s) (apiCreate d s fmime [pid]).2)
            (apiCreate d s fmime [pid]).2 (joinSeg cpath s)).creates + 1⟩ := by
  have he : mkdirWalk false (s :: rest) d c pid cpath
      = (match cacheHit c (joinSeg cpath s) with
         | some v => mkdirWalk false rest d c v (joinSeg cpath s)
         | none =>
           match apiListQ d (.folderChild pid s) with
           | f :: _ => mkdirWalk false rest d (cacheSet c (joinSeg cpath s) f.id) f.id
               (joinSeg cpath s)
           | [] =>
             if false then ⟨d, c, "", 0⟩
             else
               let r := mkdirWalk false rest (apiCreate d s fmime [pid]).1
                 (cacheSet c (joinSeg cpath s) (apiCreate d s fmime [pid]).2)
                 (apiCreate d s fmime [pid]).2 (joinSeg cpath s)
               { r with creates := r.creates + 1 }) := rfl
  rw [he, hh, hq]
  rfl

theorem mkdirWalk_fresh : ∀ (segs : List String) (d : Drive) (c : Cache) (pid cpath : String),
    (∀ s ∈ segs, s ≠ "") →
    (∀ f ∈ d.files, pid ∉ f.parents) →
    (∀ f ∈ d.files, ∀ m, d.nextId ≤ m → mkId m ∉ f.parents) →
    (∀ m, d.nextId ≤ m → pid ≠ mkId m) →
    (∀ kv ∈ c, (kv : String × String).1.length ≤ cpath.length) →
    mkdirWalk false segs d c pid cpath
      = ⟨⟨d.files ++ chainFiles segs pid d.nextId, d.nextId + segs.length⟩,
         chainCache segs cpath d.nextId c, chainLast segs pid d.nextId, segs.length⟩ := by
  intro segs
  induction segs with
  | nil =>
    intro d c pid cpath _ _ _ _ _
    simp [mkdirWalk, chainFiles, chainCache, chainLast]
  | cons s rest ih =>
    intro d c pid cpath hseg hpar hfresh hpid hcache
    have hs : s ≠ "" := hseg s (List.mem_cons_self s rest)
    have hlt := joinSeg_length cpath s hs
    have hhit : cacheHit c (joinSeg cpath s) = none := by
      apply cacheHit_eq_none
      apply cacheLookup_eq_none
      intro kv hm he
      have := hcache kv hm
      rw [he] at this
      omega
    have hquery : apiListQ d (.folderChild pid s) = [] := by
      apply apiListQ_eq_nil
      intro f hm hmq
      exact hpar f hm hmq.2.2.1
    rw [mkdirWalk_cons_create s rest d c pid cpath hhit hquery]
    have h2 : ∀ f ∈ (apiCreate d s fmime [pid]).1.files, mkId d.nextId ∉ f.parents := by
      intro f hm
      rcases List.mem_append.mp hm with hm | hm
      · exact hfresh f hm d.nextId (Nat.le_refl _)
      · rcases List.mem_singleton.mp hm with rfl
        intro hp
        rcases List.mem_singleton.mp hp with hp
        exact hpid d.nextId (Nat.le_refl _) hp.symm
    have h3 : ∀ f ∈ (apiCreate d s fmime [pid]).1.files,
        ∀ m, (apiCreate d s fmime [pid]).1.nextId ≤ m → mkId m ∉ f.parents := by
      intro f hm m hle
      rcases List.mem_append.mp hm with hm | hm
      · exact hfresh f hm m (by exact Nat.le_of_succ_le hle)
      · rcases List.mem_singleton.mp hm with rfl
        intro hp
        rcases List.mem_singleton.mp hp with hp
        exact hpid m (Nat.le_of_succ_le hle) hp.symm
    have h4 : ∀ m, (apiCreate d s fmime [pid]).1.nextId ≤ m → mkId d.nextId ≠ mkId m := by
      intro m hle he
      have := mkId_injective d.nextId m he
      have hle' : d.nextId + 1 ≤ m := hle
      omega
    have h5 : ∀ kv ∈ cacheSet c (joinSeg cpath s) (apiCreate d s fmime [pid]).2,
        (kv : String × String).1.length ≤ (joinSeg cpath s).length := by
      intro kv hm
      rcases cacheSet_mem c (joinSeg cpath s) (apiCreate d s fmime [pid]).2 kv hm with he | hm2
      · rw [he]
      · have := hcache kv hm2
        omega
    rw [ih (apiCreate d s fmime [pid]).1 (cacheSet c (joinSeg cpath s) (apiCreate d s fmime [pid]).2)
      (apiCreate d s fmime [pid]).2 (joinSeg cpath s)
      (fun s' hm => hseg s' (List.mem_cons_of_mem s hm)) h2 h3 h4 h5]
    have harith : d.nextId + 1 + rest.length = d.nextId + (rest.length + 1) := by omega
    simp [apiCreate, chainFiles, chainCache, chainLast, harith]

theorem chainCache_lookup_short :
    ∀ (segs : List String) (cpath : String) (n : Nat) (c : Cache) (k : String),
      (∀ s ∈ segs, s ≠ "") → k.length ≤ cpath.length →
      cacheLookup (chainCache segs cpath n c) k = cacheLookup c k := by
  intro segs
  induction segs with
  | nil =>
    intro cpath n c k _ _
    rfl
  | cons s rest ih =>
    intro cpath n c k hseg hk
    have hs : s ≠ "" := hseg s (List.mem_cons_self s rest)
    have hlt := joinSeg_length cpath s hs
    rw [show chainCache (s :: rest) cpath n c
        = chainCache rest (joinSeg cpath s) (n + 1) (cacheSet c (joinSeg cpath s) (mkId n))
      from rfl]
    rw [ih (joinSeg cpath s) (n + 1) (cacheSet c (joinSeg cpath s) (mkId n)) k
      (fun s' hm => hseg s' (List.mem_cons_of_mem s hm)) (by omega)]
    apply cacheLookup_set_ne
    intro he
    rw [he] at hk
    omega

theorem chainCache_hit_prefix :
    ∀ (segs : List String) (cpath : String) (n : Nat) (c : Cache) (j : Nat),
      (∀ s ∈ segs, s ≠ "") → (∀ kv ∈ c, (kv : String × String).1.length ≤ cpath.length) →
      j < segs.length →
      cacheHit (chainCache segs cpath n c) (segPath cpath (segs.take (j + 1)))
        = some (mkId (n + j)) := by
  intro segs
  induction segs with
  | nil =>
    intro cpath n c j _ _ hj
    exact absurd hj (by simp)
  | cons s rest ih =>
    intro cpath n c j hseg hcache hj
    have hs : s ≠ "" := hseg s (List.mem_cons_self s rest)
    have hlt := joinSeg_length cpath s hs
    have hseg' : ∀ s' ∈ rest, s' ≠ "" := fun s' hm => hseg s' (List.mem_cons_of_mem s hm)
    have hc2 : ∀ kv ∈ cacheSet c (joinSeg cpath s) (mkId n),
        (kv : String × String).1.length ≤ (joinSeg cpath s).length := by
      intro kv hm
      rcases cacheSet_mem c (joinSeg cpath s) (mkId n) kv hm with he | hm2
      · rw [he]
      · have := hcache kv hm2
        omega
    rw [show chainCache (s :: rest) cpath n c
        = chainCache rest (joinSeg cpath s) (n + 1) (cacheSet c (joinSeg cpath s) (mkId n))
      from rfl]
    cases j with
    | zero =>
      rw [show segPath cpath ((s :: rest).take 1) = joinSeg cpath s from rfl]
      have hlk : cacheLookup
          (chainCache rest (joinSeg cpath s) (n + 1) (cacheSet c (joinSeg cpath s) (mkId n)))
          (joinSeg cpath s) = some (mkId n) := by
        rw [chainCache_lookup_short rest (joinSeg cpath s) (n + 1)
          (cacheSet c (joinSeg cpath s) (mkId n)) (joinSeg cpath s) hseg' (Nat.le_refl _)]
        exact cacheLookup_set_self c (joinSeg cpath s) (mkId n)
      rw [cacheHit_lookup_some _ _ _ hlk, if_neg (mkId_ne_empty n), Nat.add_zero]
    | succ jj =>
      have hj' : jj < rest.length := by simpa using hj
      have := ih (joinSeg cpath s) (n + 1) (cacheSet c (joinSeg cpath s) (mkId n)) jj
        hseg' hc2 hj'
      rw [show segPath cpath ((s :: rest).take (jj + 1 + 1))
          = segPath (joinSeg cpath s) (rest.take (jj + 1)) from rfl]
      rw [this]
      have harith : n + 1 + jj = n + (jj + 1) := by omega
      rw [harith]

theorem mkdirWalk_cached :
    ∀ (segs : List String) (d : Drive) (c : Cache) (pid cpath : String) (n : Nat),
      (∀ s ∈ segs, s ≠ "") →
      (∀ kv ∈ c, (kv : String × String).1.length ≤ cpath.length) →
      mkdirWalk false segs d (chainCache segs cpath n c) pid cpath
        = ⟨d, chainCache segs cpath n c, chainLast segs pid n, 0⟩ := by
  intro segs
  induction segs with
  | nil =>
    intro d c pid cpath n _ _
    rfl
  | cons s rest ih =>
    intro d c pid cpath n hseg hcache
    have hs : s ≠ "" := hseg s (List.mem_cons_self s rest)
    have hlt := joinSeg_length cpath s hs
    have hseg' : ∀ s' ∈ rest, s' ≠ "" := fun s' hm => hseg s' (List.mem_cons_of_mem s hm)
    have hc2 : ∀ kv ∈ cacheSet c (joinSeg cpath s) (mkId n),
        (kv : String × String).1.length ≤ (joinSeg cpath s).length := by
      intro kv hm
      rcases cacheSet_mem c (joinSeg cpath s) (mkId n) kv hm with he | hm2
      · rw [he]
      · have := hcache kv hm2
        omega
    have hhit : cacheHit (chainCache (s :: rest) cpath n c) (joinSeg cpath s)
        = some (mkId n) := by
      rw [show chainCache (s :: rest) cpath n c
          = chainCache rest (joinSeg cpath s) (n + 1) (cacheSet c (joinSeg cpath s) (mkId n))
        from rfl]
      have hlk : cacheLookup
          (chainCache rest (joinSeg cpath s) (n + 1) (cacheSet c (joinSeg cpath s) (mkId n)))
          (joinSeg cpath s) = some (mkId n) := by
        rw [chainCache_lookup_short rest (joinSeg cpath s) (n + 1)
          (cacheSet c (joinSeg cpath s) (mkId n)) (joinSeg cpath s) hseg' (Nat.le_refl _)]
        exact cacheLookup_set_self c (joinSeg cpath s) (mkId n)
      rw [cacheHit_lookup_some _ _ _ hlk, if_neg (mkId_ne_empty n)]
    rw [mkdirWalk_cons_hit false s rest d (chainCache (s :: rest) cpath n c) pid cpath
      (mkId n) hhit]
    rw [show chainCache (s :: rest) cpath n c
        = chainCache rest (joinSeg cpath s) (n + 1) (cacheSet c (joinSeg cpath s) (mkId n))
      from rfl]
    rw [ih d (cacheSet c (joinSeg cpath s) (mkId n)) (mkId n) (joinSeg cpath s) (n + 1)
      hseg' hc2]
    rfl

theorem chainFiles_length : ∀ (segs : List String) (pid : String) (n : Nat),
    (chainFiles segs pid n).length = segs.length := by
  intro segs
  induction segs with
  | nil => intro pid n; rfl
  | cons s rest ih =>
    intro pid n
    rw [show chainFiles (s :: rest) pid n
        = ⟨mkId n, s, [pid], fmime, false⟩ :: chainFiles rest (mkId n) (n + 1) from rfl]
    rw [List.length_cons, ih (mkId n) (n + 1), List.length_cons]

theorem chainFiles_mem : ∀ (segs : List String) (pid : String) (n j : Nat)
    (hj : j < segs.length),
    (⟨mkId (n + j), segs.get ⟨j, hj⟩, [if j = 0 then pid else mkId (n + j - 1)],
       fmime, false⟩ : GFile) ∈ chainFiles segs pid n := by
  intro segs
  induction segs with
  | nil =>
    intro pid n j hj
    exact absurd hj (by simp)
  | cons s rest ih =>
    intro pid n j hj
    cases j with
    | zero =>
      have heq : (⟨mkId (n + 0), (s :: rest).get ⟨0, hj⟩,
          [if 0 = 0 then pid else mkId (n + 0 - 1)], fmime, false⟩ : GFile)
          = ⟨mkId n, s, [pid], fmime, false⟩ := by simp
      rw [heq]
      exact List.mem_cons_self _ _
    | succ jj =>
      have hj' : jj < rest.length := by simpa using hj
      have hmem := ih (mkId n) (n + 1) jj hj'
      have heq : (⟨mkId (n + 1 + jj), rest.get ⟨jj, hj'⟩,
          [if jj = 0 then mkId n else mkId (n + 1 + jj - 1)], fmime, false⟩ : GFile)
          = ⟨mkId (n + (jj + 1)), (s :: rest).get ⟨jj + 1, hj⟩,
             [if jj + 1 = 0 then pid else mkId (n + (jj + 1) - 1)], fmime, false⟩ := by
        have h1 : n + 1 + jj = n + (jj + 1) := by omega
        have h2 : (s :: rest).get ⟨jj + 1, hj⟩ = rest.get ⟨jj, hj'⟩ := rfl
        by_cases hjj : jj = 0
        · subst hjj
          simp [h1, h2]
        · have h3 : n + 1 + jj - 1 = n + (jj + 1) - 1 := by omega
          simp [h1, h2, h3, hjj]
      exact heq ▸ List.mem_cons_of_mem _ hmem

theorem chainLast_eq : ∀ (segs : List String) (pid : String) (n : Nat), segs ≠ [] →
    chainLast segs pid n = mkId (n + segs.length - 1) := by
  intro segs
  induction segs with
  | nil => intro pid n h; exact absurd rfl h
  | cons s rest ih =>
    intro pid n _
    cases rest with
    | nil => simp [chainLast]
    | cons t ts =>
      rw [show chainLast (s :: t :: ts) pid n = chainLast (t :: ts) (mkId n) (n + 1) from rfl]
      rw [ih (mkId n) (n + 1) (List.cons_ne_nil t ts)]
      have harith : n + 1 + (t :: ts).length - 1 = n + (s :: t :: ts).length - 1 := by
        simp only [List.length_cons]
        omega
      rw [harith]

/-- Claim C1: resolving a multi-segment path against an empty remote tree
with `gdrive_mkdir` (non-readonly) issues exactly one create per segment,
producing exactly the chain `chainFiles segs "root" 0` — the j-th created
folder has id `mkId j`, the j-th segment's name, and is parented under the
previously resolved segment's id (`"root"` for the first) — returns the id
of the final segment, caches every prefix of the path, and resolving the
same path again changes nothing and issues zero creates. -/
theorem gdrive_mkdir_chain_creation (dir : String) (segs : List String)
    (hsplit : splitSlash dir = segs) (hseg : ∀ s ∈ segs, s ≠ "") (hne : segs ≠ []) :
    (gdrive_mkdir ⟨[], 0⟩ [] dir false).creates = segs.length
    ∧ (gdrive_mkdir ⟨[], 0⟩ [] dir false).drive.files = chainFiles segs "root" 0
    ∧ (chainFiles segs "root" 0).length = segs.length
    ∧ (∀ (j : Nat) (hj : j < segs.length),
        (⟨mkId j, segs.get ⟨j, hj⟩, [if j = 0 then "root" else mkId (j - 1)],
           fmime, false⟩ : GFile) ∈ chainFiles segs "root" 0)
    ∧ (gdrive_mkdir ⟨[], 0⟩ [] dir false).pid = mkId (segs.length - 1)
    ∧ (∀ j, j < segs.length →
        cacheHit (gdrive_mkdir ⟨[], 0⟩ [] dir false).cache (segPath "" (segs.take (j + 1)))
          = some (mkId j))
    ∧ gdrive_mkdir (gdrive_mkdir ⟨[], 0⟩ [] dir false).drive
        (gdrive_mkdir ⟨[], 0⟩ [] dir false).cache dir false
      = ⟨(gdrive_mkdir ⟨[], 0⟩ [] dir false).drive,
         (gdrive_mkdir ⟨[], 0⟩ [] dir false).cache,
         (gdrive_mkdir ⟨[], 0⟩ [] dir false).pid, 0⟩ := by
  have hdir : dir ≠ "" := by
    intro h
    have h0 : splitSlash dir = [""] := by rw [h]; rfl
    rw [hsplit] at h0
    exact hseg "" (by rw [h0]; exact List.mem_singleton.mpr rfl) rfl
  have hmain := mkdirWalk_fresh segs ⟨[], 0⟩ [] "root" "" hseg
    (fun f hm => absurd hm (List.not_mem_nil f))
    (fun f hm => absurd hm (List.not_mem_nil f))
    (fun m _ => root_ne_mkId m)
    (fun kv hm => absurd hm (List.not_mem_nil kv))
  have hG : gdrive_mkdir ⟨[], 0⟩ [] dir false = mkdirWalk false segs ⟨[], 0⟩ [] "root" "" := by
    rw [gdrive_mkdir, if_neg hdir, hsplit]
  rw [hG, hmain]
  have hfiles : (⟨[], 0⟩ : Drive).files ++ chainFiles segs "root" (⟨[], 0⟩ : Drive).nextId
      = chainFiles segs "root" 0 := by simp
  have hnext : (⟨[], 0⟩ : Drive).nextId + segs.length = segs.length := by simp
  refine ⟨rfl, by simp, chainFiles_length segs "root" 0, ?_, ?_, ?_, ?_⟩
  · intro j hj
    have := chainFiles_mem segs "root" 0 j hj
    simpa using this
  · show chainLast segs "root" 0 = mkId (segs.length - 1)
    rw [chainLast_eq segs "root" 0 hne]
    rw [Nat.zero_add]
  · intro j hj
    have := chainCache_hit_prefix segs "" 0 [] j hseg
      (fun kv hm => absurd hm (List.not_mem_nil kv)) hj
    simpa using this
  · show gdrive_mkdir _ (chainCache segs "" 0 []) dir false = _
    rw [gdrive_mkdir, if_neg hdir, hsplit]
    rw [mkdirWalk_cached segs _ [] "root" "" 0 hseg (fun kv hm => absurd hm (List.not_mem_nil kv))]

/-- Witness for C1 at the spec's concrete path `a/b/c`: three creates,
the returned id is the third fresh id, and a second resolution of the same
path returns the same id with zero additional creates. -/
theorem gdrive_mkdir_chain_creation_witness :
    (gdrive_mkdir ⟨[], 0⟩ [] "a/b/c" false).creates = 3
    ∧ (gdrive_mkdir ⟨[], 0⟩ [] "a/b/c" false).pid = mkId 2
    ∧ gdrive_mkdir (gdrive_mkdir ⟨[], 0⟩ [] "a/b/c" false).drive
        (gdrive_mkdir ⟨[], 0⟩ [] "a/b/c" false).cache "a/b/c" false
      = ⟨(gdrive_mkdir ⟨[], 0⟩ [] "a/b/c" false).drive,
         (gdrive_mkdir ⟨[], 0⟩ [] "a/b/c" false).cache,
         (gdrive_mkdir ⟨[], 0⟩ [] "a/b/c" false).pid, 0⟩ :=
  ⟨(gdrive_mkdir_chain_creation "a/b/c" ["a", "b", "c"] rfl (by decide) (by decide)).1,
   (gdrive_mkdir_chain_creation "a/b/c" ["a", "b", "c"] rfl (by decide) (by decide)).2.2.2.2.1,
   (gdrive_mkdir_chain_creation "a/b/c" ["a", "b", "c"] rfl (by decide) (by decide)).2.2.2.2.2.2⟩

/-! ### `gdrive_backup`: the `.bak` linear probe (claim C7). -/

theorem mkdirWalk_cons_found (ro : Bool) (s : String) (rest : List String) (d : Drive)
    (c : Cache) (pid cpath : String) (f : GFile) (tl : List GFile)
    (hh : cacheHit c (joinSeg cpath s) = none)
    (hq : apiListQ d (.folderChild pid s) = f :: tl) :
    mkdirWalk ro (s :: rest) d c pid cpath
      = mkdirWalk ro rest d (cacheSet c (joinSeg cpath s) f.id) f.id (joinSeg cpath s) := by
  have he : mkdirWalk ro (s :: rest) d c pid cpath
      = (match cacheHit c (joinSeg cpath s) with
         | some v => mkdirWalk ro rest d c v (joinSeg cpath s)
         | none =>
           match apiListQ d (.folderChild pid s) with
           | f :: _ => mkdirWalk ro rest d (cacheSet c (joinSeg cpath s) f.id) f.id
               (joinSeg cpath s)
           | [] =>
             if ro then ⟨d, c, "", 0⟩
             else
               let r := mkdirWalk ro rest (apiCreate d s fmime [pid]).1
                 (cacheSet c (joinSeg cpath s) (apiCreate d s fmime [pid]).2)
                 (apiCreate d s fmime [pid]).2 (joinSeg cpath s)
               { r with creates := r.creates + 1 }) := rfl
  rw [he, hh, hq]

theorem mkdirWalk_cons_miss_ro (s : String) (rest : List String) (d : Drive) (c : Cache)
    (pid cpath : String) (hh : cacheHit c (joinSeg cpath s) = none)
    (hq : apiListQ d (.folderChild pid s) = []) :
    mkdirWalk true (s :: rest) d c pid cpath = ⟨d, c, "", 0⟩ := by
  have he : mkdirWalk true (s :: rest) d c pid cpath
      = (match cacheHit c (joinSeg cpath s) with
         | some v => mkdirWalk true rest d c v (joinSeg cpath s)
         | none =>
           match apiListQ d (.folderChild pid s) with
           | f :: _ => mkdirWalk true rest d (cacheSet c (joinSeg cpath s) f.id) f.id
               (joinSeg cpath s)
           | [] =>
             if true then ⟨d, c, "", 0⟩
             else
               let r := mkdirWalk true rest (apiCreate d s fmime [pid]).1
                 (cacheSet c (joinSeg cpath s) (apiCreate d s fmime [pid]).2)
                 (apiCreate d s fmime [pid]).2 (joinSeg cpath s)
               { r with creates := r.creates + 1 }) := rfl
  rw [he, hh, hq]
  rfl

theorem strAppend_left_cancel (a b b' : String) (h : a ++ b = a ++ b') : b = b' := by
  have hd := congrArg String.data h
  simp only [String.data_append] at hd
  exact congrArg String.mk (List.append_cancel_left hd)

theorem bakAppend_ne_extended (j : Nat) : (".bak" : String) ≠ ".bak" ++ Nat.repr j := by
  intro h
  have hd := congrArg String.data h
  rw [String.data_append] at hd
  have hlen := congrArg List.length hd
  rw [List.length_append] at hlen
  have hz : (Nat.repr j).data.length = 0 := by omega
  have := natDigits_ne_nil j
  rw [← natRepr_data j] at this
  exact this (List.eq_nil_of_length_eq_zero hz)

theorem bakAppend_injective (i j : Nat) (h : bakAppend i = bakAppend j) : i = j := by
  by_cases hi : i = 0 <;> by_cases hj : j = 0
  · rw [hi, hj]
  · subst hi
    rw [bakAppend, bakAppend, if_pos rfl, if_neg hj] at h
    exact absurd h (bakAppend_ne_extended j)
  · subst hj
    rw [bakAppend, bakAppend, if_pos rfl, if_neg hi] at h
    exact absurd h.symm (bakAppend_ne_extended i)
  · rw [bakAppend, bakAppend, if_neg hi, if_neg hj] at h
    exact natRepr_injective i j (strAppend_left_cancel ".bak" _ _ h)

theorem probe_free_exists (dd : Drive) (bfid nm : String) :
    ∃ j, j ≤ dd.files.length ∧ gdrive_get dd bfid (nm ++ bakAppend j) = [] := by
  by_contra hcon
  push_neg at hcon
  have hpick : ∀ j, j ≤ dd.files.length → ∃ f ∈ dd.files, f.name = nm ++ bakAppend j := by
    intro j hj
    have hne := hcon j hj
    cases hq : gdrive_get dd bfid (nm ++ bakAppend j) with
    | nil => exact absurd hq hne
    | cons f tl =>
      have hm := apiListQ_mem dd (.child bfid (nm ++ bakAppend j)) f
        (by rw [gdrive_get] at hq; rw [hq]; exact List.mem_cons_self f tl)
      exact ⟨f, hm.1, hm.2.2.2⟩
  have hinj : Function.Injective (fun j : Nat => nm ++ bakAppend j) := by
    intro a b hab
    exact bakAppend_injective a b (strAppend_left_cancel nm _ _ hab)
  have hsub : (Finset.range (dd.files.length + 1)).image (fun j => nm ++ bakAppend j)
      ⊆ (dd.files.map (fun f => f.name)).toFinset := by
    intro x hx
    rcases Finset.mem_image.mp hx with ⟨j, hj, rfl⟩
    rcases hpick j (Nat.lt_succ_iff.mp (Finset.mem_range.mp hj)) with ⟨f, hf, hname⟩
    rw [List.mem_toFinset]
    exact hname ▸ List.mem_map_of_mem (fun f => f.name) hf
  have hcard1 : ((Finset.range (dd.files.length + 1)).image (fun j => nm ++ bakAppend j)).card
      = dd.files.length + 1 := by
    rw [Finset.card_image_of_injective _ hinj, Finset.card_range]
  have hcard2 := Finset.card_le_card hsub
  have hcard3 : (dd.files.map (fun f => f.name)).toFinset.card ≤ dd.files.length := by
    calc (dd.files.map (fun f => f.name)).toFinset.card
        ≤ (dd.files.map (fun f => f.name)).length := List.toFinset_card_le _
      _ = dd.files.length := List.length_map _ _
  omega

theorem probeBak_finds (dd : Drive) (bfid nm : String) :
    ∀ (fuel j : Nat),
      (∃ i, j ≤ i ∧ i < j + fuel ∧ gdrive_get dd bfid (nm ++ bakAppend i) = []) →
      gdrive_get dd bfid (nm ++ bakAppend (probeBak dd bfid nm fuel j)) = []
      ∧ j ≤ probeBak dd bfid nm fuel j
      ∧ (∀ i, j ≤ i → i < probeBak dd bfid nm fuel j →
          gdrive_get dd bfid (nm ++ bakAppend i) ≠ []) := by
  intro fuel
  induction fuel with
  | zero =>
    intro j hex
    obtain ⟨i, h1, h2, _⟩ := hex
    exfalso
    omega
  | succ fuel ih =>
    intro j hex
    by_cases hfree : gdrive_get dd bfid (nm ++ bakAppend j) = []
    · rw [show probeBak dd bfid nm (fuel + 1) j = j from by rw [probeBak, if_pos hfree]]
      exact ⟨hfree, Nat.le_refl j, fun i hi1 hi2 => absurd (Nat.lt_of_le_of_lt hi1 hi2)
        (Nat.lt_irrefl j)⟩
    · have hstep : probeBak dd bfid nm (fuel + 1) j = probeBak dd bfid nm fuel (j + 1) := by
        rw [probeBak, if_neg hfree]
      obtain ⟨i, h1, h2, h3⟩ := hex
      have hne : j ≠ i := fun he => hfree (he ▸ h3)
      obtain ⟨f1, f2, f3⟩ := ih (j + 1) ⟨i, by omega, by omega, h3⟩
      rw [hstep]
      refine ⟨f1, by omega, ?_⟩
      intro i' hi1 hi2
      rcases Nat.eq_or_lt_of_le hi1 with he | hlt
      · rw [← he]
        exact hfree
      · exact f3 i' hlt hi2

theorem mkdirWalk_lookup_isSome (k : String) :
    ∀ (segs : List String) (ro : Bool) (d : Drive) (c : Cache) (pid cpath : String),
      (cacheLookup c k).isSome = true →
      (cacheLookup (mkdirWalk ro segs d c pid cpath).cache k).isSome = true := by
  intro segs
  induction segs with
  | nil =>
    intro ro d c pid cpath h
    exact h
  | cons s rest ih =>
    intro ro d c pid cpath h
    cases hc : cacheHit c (joinSeg cpath s) with
    | some v =>
      rw [mkdirWalk_cons_hit ro s rest d c pid cpath v hc]
      exact ih ro d c v (joinSeg cpath s) h
    | none =>
      cases hq : apiListQ d (.folderChild pid s) with
      | cons f tl =>
        rw [mkdirWalk_cons_found ro s rest d c pid cpath f tl hc hq]
        exact ih ro d (cacheSet c (joinSeg cpath s) f.id) f.id (joinSeg cpath s)
          (cacheLookup_set_isSome c (joinSeg cpath s) f.id k h)
      | nil =>
        cases ro with
        | true =>
          rw [mkdirWalk_cons_miss_ro s rest d c pid cpath hc hq]
          exact h
        | false =>
          rw [mkdirWalk_cons_create s rest d c pid cpath hc hq]
          exact ih false (apiCreate d s fmime [pid]).1
            (cacheSet c (joinSeg cpath s) (apiCreate d s fmime [pid]).2)
            (apiCreate d s fmime [pid]).2 (joinSeg cpath s)
            (cacheLookup_set_isSome c (joinSeg cpath s) (apiCreate d s fmime [pid]).2 k h)

theorem gdrive_mkdir_lookup_isSome (d : Drive) (c : Cache) (dir : String) (ro : Bool)
    (k : String) (h : (cacheLookup c k).isSome = true) :
    (cacheLookup (gdrive_mkdir d c dir ro).cache k).isSome = true := by
  by_cases hdir : dir = ""
  · rw [gdrive_mkdir, if_pos hdir]
    exact h
  · rw [gdrive_mkdir, if_neg hdir]
    exact mkdirWalk_lookup_isSome k (splitSlash dir) ro d c "root" "" h

theorem gdrive_find_caches (d : Drive) (c : Cache) (gpath : String)
    (h : (gdrive_find d c gpath).pid ≠ "") :
    (cacheLookup (gdrive_find d c gpath).cache gpath).isSome = true := by
  cases hcg : cacheHit c gpath with
  | some v =>
    have he : gdrive_find d c gpath = ⟨d, c, v⟩ := by rw [gdrive_find, hcg]
    rw [he]
    show (cacheLookup c gpath).isSome = true
    cases hl : cacheLookup c gpath with
    | some w => rfl
    | none =>
      rw [cacheHit_eq_none c gpath hl] at hcg
      cases hcg
  | none =>
    have he : gdrive_find d c gpath
        = findLeaf (findParent d c (findDir gpath)).1 (findParent d c (findDir gpath)).2.1
            (findParent d c (findDir gpath)).2.2 gpath (posixBasename gpath) := by
      rw [gdrive_find, hcg]
    rw [he] at h ⊢
    rw [findLeaf] at h ⊢
    by_cases hp : (findParent d c (findDir gpath)).2.2 = ""
    · rw [if_pos hp] at h
      exact absurd rfl h
    · rw [if_neg hp] at h ⊢
      by_cases hf : posixBasename gpath = "" ∨ posixBasename gpath = "."
      · rw [if_pos hf]
        show (cacheLookup (cacheSet _ gpath _) gpath).isSome = true
        rw [cacheLookup_set_self]
        rfl
      · rw [if_neg hf] at h ⊢
        cases hq : gdrive_get (findParent d c (findDir gpath)).1
            (findParent d c (findDir gpath)).2.2 (posixBasename gpath) with
        | nil =>
          rw [hq] at h
          exact absurd rfl h
        | cons f tl =>
          show (cacheLookup (cacheSet _ gpath _) gpath).isSome = true
          rw [cacheLookup_set_self]
          rfl

theorem gdrive_backup_eq (d : Drive) (c : Cache) (folder nm : String)
    (hfid : (gdrive_find d c folder).pid ≠ "")
    (hid : (gdrive_find (gdrive_find d c folder).drive (gdrive_find d c folder).cache
        (posixJoin folder nm)).pid ≠ "") :
    gdrive_backup d c folder nm
      = ⟨apiMove (apiRename (backupM d c folder nm).drive (backupR2 d c folder nm).pid
            (nm ++ bakAppend (backupProbeIdx d c folder nm)))
            (backupR2 d c folder nm).pid (backupM d c folder nm).pid,
         (backupM d c folder nm).cache.filter (fun p => decide (p.1 ≠ posixJoin folder nm)),
         true, false⟩ := by
  have h0 : ¬((gdrive_find (gdrive_find d c folder).drive (gdrive_find d c folder).cache
      (posixJoin folder nm)).pid = "" ∨ (gdrive_find d c folder).pid = "") := by
    push_neg
    exact ⟨hid, hfid⟩
  have hl2 := gdrive_find_caches (gdrive_find d c folder).drive (gdrive_find d c folder).cache
    (posixJoin folder nm) hid
  have hlM : (cacheLookup (backupM d c folder nm).cache (posixJoin folder nm)).isSome = true :=
    gdrive_mkdir_lookup_isSome (backupR2 d c folder nm).drive (backupR2 d c folder nm).cache
      (posixJoin folder "old") false (posixJoin folder nm) hl2
  have hdel : cacheDel (backupM d c folder nm).cache (posixJoin folder nm)
      = some ((backupM d c folder nm).cache.filter
          (fun p => decide (p.1 ≠ posixJoin folder nm))) := by
    rw [cacheDel, if_pos hlM]
  simp only [backupProbeIdx, backupM, backupR2] at hdel ⊢
  simp only [gdrive_backup]
  rw [if_neg h0, hdel]

/-- Claim C7: for an existing object at `folder/name` (both resolutions
succeed), `gdrive_backup` picks with a linear probe the first suffix among
`.bak`, `.bak1`, `.bak2`, ... unused in the `folder/old` subtree, renames
the object to `name ++ suffix`, moves it under the `folder/old` folder id,
evicts the cache entry for the original path, and returns `True` without
raising. -/
theorem gdrive_backup_first_free_suffix (d : Drive) (c : Cache) (folder nm : String)
    (hfid : (gdrive_find d c folder).pid ≠ "")
    (hid : (gdrive_find (gdrive_find d c folder).drive (gdrive_find d c folder).cache
        (posixJoin folder nm)).pid ≠ "") :
    gdrive_get (backupM d c folder nm).drive (backupM d c folder nm).pid
        (nm ++ bakAppend (backupProbeIdx d c folder nm)) = []
    ∧ (∀ i, i < backupProbeIdx d c folder nm →
        gdrive_get (backupM d c folder nm).drive (backupM d c folder nm).pid
          (nm ++ bakAppend i) ≠ [])
    ∧ (gdrive_backup d c folder nm).ret = true
    ∧ (gdrive_backup d c folder nm).raised = false
    ∧ (gdrive_backup d c folder nm).drive
        = apiMove (apiRename (backupM d c folder nm).drive (backupR2 d c folder nm).pid
            (nm ++ bakAppend (backupProbeIdx d c folder nm)))
            (backupR2 d c folder nm).pid (backupM d c folder nm).pid
    ∧ cacheLookup (gdrive_backup d c folder nm).cache (posixJoin folder nm) = none
    ∧ (∀ f ∈ (backupM d c folder nm).drive.files, f.id = (backupR2 d c folder nm).pid →
        (⟨f.id, nm ++ bakAppend (backupProbeIdx d c folder nm),
           [(backupM d c folder nm).pid], f.mimeType, f.trashed⟩ : GFile)
          ∈ (gdrive_backup d c folder nm).drive.files) := by
  have hB := gdrive_backup_eq d c folder nm hfid hid
  obtain ⟨j, hj1, hj2⟩ := probe_free_exists (backupM d c folder nm).drive
    (backupM d c folder nm).pid nm
  obtain ⟨p1, p2, p3⟩ := probeBak_finds (backupM d c folder nm).drive
    (backupM d c folder nm).pid nm ((backupM d c folder nm).drive.files.length + 1) 0
    ⟨j, Nat.zero_le j, by omega, hj2⟩
  refine ⟨p1, fun i hi => p3 i (Nat.zero_le i) hi, ?_, ?_, ?_, ?_, ?_⟩
  · rw [hB]
  · rw [hB]
  · rw [hB]
  · rw [hB]
    exact cacheLookup_filter_self (backupM d c folder nm).cache (posixJoin folder nm)
  · intro f hf hfid2
    rw [hB]
    show _ ∈ ((apiRename (backupM d c folder nm).drive (backupR2 d c folder nm).pid
        (nm ++ bakAppend (backupProbeIdx d c folder nm))).files.map
          (fun g => if g.id = (backupR2 d c folder nm).pid
            then { g with parents := [(backupM d c folder nm).pid] } else g))
    refine List.mem_map.mpr
      ⟨{ f with name := nm ++ bakAppend (backupProbeIdx d c folder nm) }, ?_, ?_⟩
    · show _ ∈ ((backupM d c folder nm).drive.files.map
          (fun g => if g.id = (backupR2 d c folder nm).pid
            then { g with name := nm ++ bakAppend (backupProbeIdx d c folder nm) } else g))
      refine List.mem_map.mpr ⟨f, hf, ?_⟩
      rw [if_pos hfid2]
    · simp [hfid2]

/-- Witness for C7 at the spec's concrete scenario: object at `d/f`,
`d/old/f.bak` already taken, so backup relocates `f` to `old` as
`f.bak1`. -/
theorem gdrive_backup_first_free_suffix_witness :
    (gdrive_backup (⟨[⟨"F", "d", ["root"], fmime, false⟩,
        ⟨"X", "f", ["F"], "text/plain", false⟩,
        ⟨"O", "old", ["F"], fmime, false⟩,
        ⟨"B", "f.bak", ["O"], "text/plain", false⟩], 0⟩ : Drive) [] "d" "f").ret = true
    ∧ (gdrive_backup (⟨[⟨"F", "d", ["root"], fmime, false⟩,
        ⟨"X", "f", ["F"], "text/plain", false⟩,
        ⟨"O", "old", ["F"], fmime, false⟩,
        ⟨"B", "f.bak", ["O"], "text/plain", false⟩], 0⟩ : Drive) [] "d" "f").raised = false
    ∧ (⟨"X", "f.bak1", ["O"], "text/plain", false⟩ : GFile) ∈
        (gdrive_backup (⟨[⟨"F", "d", ["root"], fmime, false⟩,
          ⟨"X", "f", ["F"], "text/plain", false⟩,
          ⟨"O", "old", ["F"], fmime, false⟩,
          ⟨"B", "f.bak", ["O"], "text/plain", false⟩], 0⟩ : Drive) [] "d" "f").drive.files := by
  obtain ⟨p1, p2, p3, p4, p5, p6, p7⟩ :=
    gdrive_backup_first_free_suffix (⟨[⟨"F", "d", ["root"], fmime, false⟩,
      ⟨"X", "f", ["F"], "text/plain", false⟩,
      ⟨"O", "old", ["F"], fmime, false⟩,
      ⟨"B", "f.bak", ["O"], "text/plain", false⟩], 0⟩ : Drive) [] "d" "f"
      (by decide) (by decide)
  exact ⟨p3, p4, by decide⟩
